import Mathlib

/-!
Verification development for the InsightBI dashboard repository.

The numeric type of the TypeScript source (`number`) is modelled by `ℚ`;
timestamps (ISO strings compared through `new Date(...).getTime()`) are
modelled by `Nat` values in timeline order. Fallible lookups (`Map.get`,
`Array.find`) are modelled by `Option`.
-/

namespace InsightBI

/-! ### Pipeline rollup — src/lib/pipelineData.ts -/

/-- Stage configuration record (`PipelineStageConfig` in src/lib/pipelineData.ts).
The display metadata (`name`, `color`, `bgColor`, `description`) is carried
verbatim; `probability` is the closing probability in percent. -/
structure PipelineStageConfig where
  id : String
  name : String
  probability : ℚ
  color : String
  bgColor : String
  description : String
deriving DecidableEq, Repr

/-- Pipeline item record (`PipelineItem` in src/lib/pipelineData.ts).
`stage` is the stage id string (the TypeScript union type `'A'|'B'|'C'|'D'`
is a union of string literals, so it is modelled by `String`). -/
structure PipelineItem where
  id : String
  name : String
  amount : ℚ
  stage : String
  expectedCloseMonth : Nat
  customer : String
  owner : String
deriving DecidableEq, Repr

/-- Per-stage summary record (`PipelineSummary` in src/lib/pipelineData.ts). -/
structure PipelineSummary where
  stage : String
  count : Nat
  totalAmount : ℚ
  weightedAmount : ℚ
deriving DecidableEq, Repr

/-- `calculatePipelineSummary` from src/lib/pipelineData.ts, with the two
module-level constants (`pipelineStages`, `pipelineData`) that the source
closes over made explicit parameters:
`stages.map(stage => { const items = pipelineData.filter(p => p.stage === stage.id);
 const totalAmount = items.reduce((sum, item) => sum + item.amount, 0); ... })`. -/
def calculatePipelineSummaryWith (stages : List PipelineStageConfig)
    (items : List PipelineItem) : List PipelineSummary :=
  stages.map (fun stage =>
    let matching := items.filter (fun p => p.stage == stage.id)
    let totalAmount := matching.foldl (fun sum item => sum + item.amount) 0
    { stage := stage.id
      count := matching.length
      totalAmount := totalAmount
      weightedAmount := totalAmount * (stage.probability / 100) })

/-- `getWeightedTotal` from src/lib/pipelineData.ts:
`summary.reduce((sum, s) => sum + s.weightedAmount, 0)` over the freshly
computed summary. -/
def getWeightedTotalWith (stages : List PipelineStageConfig)
    (items : List PipelineItem) : ℚ :=
  (calculatePipelineSummaryWith stages items).foldl (fun sum s => sum + s.weightedAmount) 0

/-- `getGrossTotal` from src/lib/pipelineData.ts:
`summary.reduce((sum, s) => sum + s.totalAmount, 0)`. -/
def getGrossTotalWith (stages : List PipelineStageConfig)
    (items : List PipelineItem) : ℚ :=
  (calculatePipelineSummaryWith stages items).foldl (fun sum s => sum + s.totalAmount) 0

/-- `getStageConfig` from src/lib/pipelineData.ts. The source uses
`pipelineStages.find(s => s.id === stage)!`; the non-null assertion `!` is a
compile-time cast only, so at runtime a missing stage yields `undefined`,
modelled by `none` — no error is raised. -/
def getStageConfig (stages : List PipelineStageConfig) (stage : String) :
    Option PipelineStageConfig :=
  stages.find? (fun s => s.id == stage)

/-- The `pipelineStages` constant of src/lib/pipelineData.ts. -/
def pipelineStages : List PipelineStageConfig :=
  [ { id := "A", name := "A案件", probability := 80, color := "text-emerald-700",
      bgColor := "bg-emerald-100", description := "内示・ほぼ確定" },
    { id := "B", name := "B案件", probability := 50, color := "text-blue-700",
      bgColor := "bg-blue-100", description := "見積提出・交渉中" },
    { id := "C", name := "C案件", probability := 20, color := "text-amber-700",
      bgColor := "bg-amber-100", description := "提案中・検討中" },
    { id := "D", name := "D案件", probability := 5, color := "text-slate-600",
      bgColor := "bg-slate-100", description := "情報収集・話のみ" } ]

/-- The `pipelineData` demo constant of src/lib/pipelineData.ts. -/
def pipelineData : List PipelineItem :=
  [ { id := "A001", name := "○○ビル新築工事", amount := 8.5, stage := "A",
      expectedCloseMonth := 10, customer := "○○不動産", owner := "田中" },
    { id := "A002", name := "△△マンション改修", amount := 4.2, stage := "A",
      expectedCloseMonth := 11, customer := "△△管理組合", owner := "佐藤" },
    { id := "A003", name := "□□工場増設", amount := 6.8, stage := "A",
      expectedCloseMonth := 12, customer := "□□製作所", owner := "鈴木" },
    { id := "A004", name := "◇◇病院リニューアル", amount := 3.5, stage := "A",
      expectedCloseMonth := 1, customer := "◇◇医療法人", owner := "高橋" },
    { id := "B001", name := "××商業施設", amount := 12.0, stage := "B",
      expectedCloseMonth := 11, customer := "××リテール", owner := "伊藤" },
    { id := "B002", name := "▽▽オフィスビル", amount := 7.5, stage := "B",
      expectedCloseMonth := 12, customer := "▽▽商事", owner := "渡辺" },
    { id := "B003", name := "◎◎物流センター", amount := 9.0, stage := "B",
      expectedCloseMonth := 1, customer := "◎◎物流", owner := "山本" },
    { id := "B004", name := "☆☆学校体育館", amount := 4.5, stage := "B",
      expectedCloseMonth := 2, customer := "☆☆市教育委員会", owner := "中村" },
    { id := "B005", name := "◆◆ホテル改装", amount := 5.8, stage := "B",
      expectedCloseMonth := 3, customer := "◆◆観光", owner := "小林" },
    { id := "C001", name := "●●タワー新築", amount := 25.0, stage := "C",
      expectedCloseMonth := 2, customer := "●●開発", owner := "加藤" },
    { id := "C002", name := "■■工場移転", amount := 15.0, stage := "C",
      expectedCloseMonth := 3, customer := "■■工業", owner := "吉田" },
    { id := "C003", name := "▲▲研究施設", amount := 8.5, stage := "C",
      expectedCloseMonth := 3, customer := "▲▲製薬", owner := "山田" },
    { id := "C004", name := "★★データセンター", amount := 18.0, stage := "C",
      expectedCloseMonth := 3, customer := "★★IT", owner := "佐々木" },
    { id := "D001", name := "○△複合施設計画", amount := 50.0, stage := "D",
      expectedCloseMonth := 3, customer := "○△ホールディングス", owner := "松本" },
    { id := "D002", name := "□×再開発プロジェクト", amount := 35.0, stage := "D",
      expectedCloseMonth := 3, customer := "□×都市開発", owner := "井上" },
    { id := "D003", name := "◇◎新工場構想", amount := 20.0, stage := "D",
      expectedCloseMonth := 3, customer := "◇◎自動車", owner := "木村" } ]

/-- The zero-argument `calculatePipelineSummary()` of the source, which reads
the two module constants. -/
def calculatePipelineSummary : List PipelineSummary :=
  calculatePipelineSummaryWith pipelineStages pipelineData

/-! ### Status classification — `varColor`, src/components/MonthlyFollowDashboard.tsx lines 30–36 -/

/-- The three-level status plus `pending` used by the spec's `classify`. -/
inductive KpiStatus where
  | good
  | warning
  | critical
  | pending
deriving DecidableEq, Repr

/-- `varColor` from src/components/MonthlyFollowDashboard.tsx:
`if (rate === null) return 'text-slate-300';
 const effective = isHigherBetter ? rate : -rate;
 if (effective >= 0) return 'text-emerald-600';
 if (effective >= -5) return 'text-amber-600';
 return 'text-red-600';`. -/
def varColor (rate : Option ℚ) (isHigherBetter : Bool) : String :=
  match rate with
  | none => "text-slate-300"
  | some r =>
    let effective := if isHigherBetter then r else -r
    if effective ≥ 0 then "text-emerald-600"
    else if effective ≥ -5 then "text-amber-600"
    else "text-red-600"

/-- Modelled from the spec (§4.2 StatusClassifier), as the claim states it:
`null → pending`; with `effective = isHigherBetter ? rate : -rate`,
`effective >= 0 → good`, `-5 <= effective < 0 → warning`,
`effective < -5 → critical`. -/
def classifySpec (rate : Option ℚ) (isHigherBetter : Bool) : KpiStatus :=
  match rate with
  | none => KpiStatus.pending
  | some r =>
    let effective := if isHigherBetter then r else -r
    if effective ≥ 0 then KpiStatus.good
    else if -5 ≤ effective ∧ effective < 0 then KpiStatus.warning
    else KpiStatus.critical

/-- The colour each status is rendered with in `varColor`. -/
def statusColor : KpiStatus → String
  | KpiStatus.good => "text-emerald-600"
  | KpiStatus.warning => "text-amber-600"
  | KpiStatus.critical => "text-red-600"
  | KpiStatus.pending => "text-slate-300"

/-! ### Notification read-state — src/unnamed/part_001 -/

/-- Notification record, restricted to the fields relevant to read-state
(`Notification` in src/lib/types.ts). -/
structure NotificationRec where
  id : String
  userId : String
  isRead : Bool
deriving DecidableEq, Repr

/-- `handleMarkAllAsRead` from src/unnamed/part_001 lines 301–305:
`setNotifications(prev => prev.map(n => ({ ...n, isRead: true })))`. -/
def handleMarkAllAsRead (ns : List NotificationRec) : List NotificationRec :=
  ns.map (fun n => { n with isRead := true })

/-! ### YTD / forecast — `calculateYTD` / `calculateForecast`

The dashboard imports these from `@/lib/monthlyData`, which is not among the
repository's source files; they are therefore modelled from the spec (§4.1). -/

/-- Month record of the spec's data model (§3): position in the fixed fiscal
month sequence, closed flag, actual (null while open) and budget. -/
structure MonthRecord where
  month : Nat
  isClosed : Bool
  actual : Option ℚ
  budget : ℚ
deriving DecidableEq, Repr

/-- Modelled from the spec: `computeYTD(dataset, uptoMonth)` (the
implementation `calculateYTD` lives in `@/lib/monthlyData`, which is missing
from src/). For each KPI it sums `actual` over all closed months at or
before `uptoMonth` in fiscal order, and `budget` over the same window; if
zero closed months qualify the actual sum is `null`. Returns the pair
(actual sum, budget sum). -/
def computeYTD (dataset : List MonthRecord) (uptoMonth : Nat) : Option ℚ × ℚ :=
  let window := dataset.filter (fun m => m.isClosed && decide (m.month ≤ uptoMonth))
  ( if window.isEmpty then none
    else some ((window.map (fun m => m.actual.getD 0)).sum),
    (window.map (fun m => m.budget)).sum )

/-- Modelled from the spec: `computeForecast(dataset, asOfMonth)` (the
implementation `calculateForecast` lives in `@/lib/monthlyData`, which is
missing from src/): `forecast = sum(actual over closed months) +
sum(budget over remaining open months)`, the remaining months being the
open months after `asOfMonth` in the fiscal sequence. -/
def computeForecast (dataset : List MonthRecord) (asOfMonth : Nat) : ℚ :=
  ((dataset.filter (fun m => m.isClosed)).map (fun m => m.actual.getD 0)).sum
    + ((dataset.filter (fun m => !m.isClosed && decide (asOfMonth < m.month))).map
        (fun m => m.budget)).sum

/-! ### Reaction toggle — `handleAddReaction`, src/components/MonthlyFollowDashboard.tsx lines 1406–1508 -/

/-- One reaction entry of an activity's metadata:
`{ emoji: string; users: string[] }`. -/
structure ReactionEntry where
  emoji : String
  users : List String
deriving DecidableEq, Repr

/-- The reaction-state transformation performed by `handleAddReaction` on the
matched activity's `metadata.reactions` array, with the acting user
(`CURRENT_USER.name` in the source) an explicit parameter:
if an entry for `emoji` exists and its `users` contains the user, the user is
filtered out of every entry for that emoji and entries left with no users are
removed; if the entry exists without the user, the user is appended; else a
new entry `{emoji, users:[user]}` is appended. -/
def toggleReaction (reactions : List ReactionEntry) (emoji : String) (user : String) :
    List ReactionEntry :=
  match reactions.find? (fun r => r.emoji == emoji) with
  | some existingReaction =>
    if existingReaction.users.contains user then
      (reactions.map (fun r =>
        if r.emoji == emoji then { r with users := r.users.filter (fun u => u != user) }
        else r)).filter (fun r => 0 < r.users.length)
    else
      reactions.map (fun r =>
        if r.emoji == emoji then { r with users := r.users ++ [user] } else r)
  | none => reactions ++ [{ emoji := emoji, users := [user] }]

/-- Membership of a single (emoji, user) pair in a reaction state — the
"set semantics" view of the serialized array form. -/
def hasReaction (reactions : List ReactionEntry) (em u : String) : Prop :=
  ∃ r ∈ reactions, r.emoji = em ∧ u ∈ r.users

instance (reactions : List ReactionEntry) (em u : String) :
    Decidable (hasReaction reactions em u) := by
  unfold hasReaction
  infer_instance

/-- The data-model invariant of the spec (§3): a comment's `reactions` never
contains two entries with the same emoji. -/
def EmojisNodup (reactions : List ReactionEntry) : Prop :=
  (reactions.map (fun r => r.emoji)).Nodup

instance (reactions : List ReactionEntry) : Decidable (EmojisNodup reactions) := by
  unfold EmojisNodup
  infer_instance

/-- Set semantics of each entry: no duplicated userId within one emoji's
user list. -/
def UsersNodup (reactions : List ReactionEntry) : Prop :=
  ∀ r ∈ reactions, r.users.Nodup

instance (reactions : List ReactionEntry) : Decidable (UsersNodup reactions) := by
  unfold UsersNodup
  infer_instance

/-! ### Mention extraction — `handleSubmit` (CommentInput), src/components/MonthlyFollowDashboard.tsx lines 569–587 -/

/-- Directory user, restricted to the fields mention resolution uses
(`User` in src/lib/types.ts). -/
structure DirUser where
  id : String
  name : String
deriving DecidableEq, Repr

/-- The token stream produced by repeatedly executing the global regex
`/@(\S+)/g` on the comment text: each `@` followed by at least one
non-whitespace character yields the maximal run of non-whitespace characters
after it (which is then skipped, since `exec` resumes after the match). -/
def mentionTokens : List Char → List String
  | [] => []
  | c :: rest =>
    if c = '@' then
      let tok := rest.takeWhile (fun ch => !ch.isWhitespace)
      if tok.isEmpty then mentionTokens rest
      else String.mk tok :: mentionTokens (rest.drop tok.length)
    else mentionTokens rest
termination_by l => l.length
decreasing_by
  · simp
  · simp only [List.length_drop, List.length_cons]
    omega
  · simp

/-- The mention-extraction loop of `handleSubmit`: for every regex match in
order, `DEMO_USERS.find(u => u.name === mentionName)`; when found and its id
is not yet collected, push the id. The user directory (`DEMO_USERS` in the
source) is an explicit parameter. -/
def extractMentions (users : List DirUser) (content : String) : List String :=
  (mentionTokens content.data).foldl (fun extractedMentions mentionName =>
    match users.find? (fun u => u.name == mentionName) with
    | some user =>
      if extractedMentions.contains user.id then extractedMentions
      else extractedMentions ++ [user.id]
    | none => extractedMentions) []

/-- Spec-side resolution of one token: exact string equality against
`user.name`, first directory hit, yielding the user id. -/
def resolveToken (users : List DirUser) (tok : String) : Option String :=
  (users.find? (fun u => u.name == tok)).map (fun u => u.id)

/-- Spec-side duplicate collapse: keep the first occurrence of each element,
preserving first-occurrence order. -/
def firstDedup : List String → List String
  | [] => []
  | a :: l => a :: firstDedup (l.filter (fun b => b != a))
termination_by l => l.length
decreasing_by
  simp only [List.length_cons]
  exact Nat.lt_succ_of_le (List.length_filter_le _ _)

/-! ### Comment tree — `commentTree`, src/components/MonthlyFollowDashboard.tsx lines 823–858 -/

/-- Flat comment record, restricted to the fields the tree builder reads
(`ThreadComment` in src/lib/types.ts): `id`, `parentId`, and `createdAt`
(an ISO timestamp string compared via `new Date(...).getTime()`, modelled
as `Nat`). -/
structure CommentRec where
  id : String
  parentId : Option String
  createdAt : Nat
deriving DecidableEq, Repr

mutual
/-- A node of the built comment tree: the comment plus its materialized,
recursively sorted `replies`. -/
inductive CTree where
  | node : CommentRec → CForest → CTree
deriving DecidableEq
/-- A list of comment-tree nodes (a `replies` array). -/
inductive CForest where
  | nil : CForest
  | cons : CTree → CForest → CForest
deriving DecidableEq
end

/-- The `byId` map after the first indexing pass
(`comments.forEach(c => byId.set(c.id, {...c, replies: []}))`): a later
`set` with the same id overwrites an earlier one, so lookup returns the last
occurrence with that id. -/
def byIdGet (cs : List CommentRec) (i : String) : Option CommentRec :=
  cs.foldl (fun acc c => if c.id == i then some c else acc) none

/-- `byId.has` on the indexed map. -/
def byIdHas (cs : List CommentRec) (i : String) : Bool :=
  (byIdGet cs i).isSome

/-- The attachment test of the second pass:
`if (c.parentId && byId.has(c.parentId))`. Note the JavaScript truthiness
test: the empty string is falsy, so a comment whose `parentId` is `""` is
never attached, even when a comment with id `""` exists. -/
def attachable (cs : List CommentRec) (c : CommentRec) : Bool :=
  match c.parentId with
  | none => false
  | some p => (p != "") && byIdHas cs p

/-- The `topLevel` array after the second pass, in push order: for every
comment that fails the attachment test, the `byId` node for its id is
pushed. -/
def topLevelNodes (cs : List CommentRec) : List CommentRec :=
  (cs.filter (fun c => !attachable cs c)).filterMap (fun c => byIdGet cs c.id)

/-- The `replies` array of the `byId` node with id `i` after the second
pass, in push order: for every comment that passes the attachment test and
whose `parentId` is `i`, the `byId` node for its id is pushed. -/
def repliesOf (cs : List CommentRec) (i : String) : List CommentRec :=
  (cs.filter (fun c => attachable cs c && c.parentId == some i)).filterMap
    (fun c => byIdGet cs c.id)

/-- The comparator `sortByDate` (`new Date(a.createdAt).getTime() -
new Date(b.createdAt).getTime()`) sorts ascending by timestamp;
`Array.prototype.sort` is stable (ES2019), modelled by the stable
`List.insertionSort`. -/
def sortByCreated (l : List CommentRec) : List CommentRec :=
  l.insertionSort (fun a b => a.createdAt ≤ b.createdAt)

/-- Build an `Option CForest` from child results, failing if any child
fails. -/
def kidsForest (f : CommentRec → Option CTree) : List CommentRec → Option CForest
  | [] => some CForest.nil
  | k :: ks =>
    match f k, kidsForest f ks with
    | some t, some fo => some (CForest.cons t fo)
    | _, _ => none

/-- The recursive part of the builder (`sortReplies` walking the attached
graph): a node's replies are sorted by `createdAt` and each reply is built
recursively. The recursion of the source is unbounded (it follows object
references); `fuel` bounds it here, with `none` meaning the recursion does
not finish within `fuel` levels — the source diverges exactly when no fuel
suffices. -/
def buildNode (cs : List CommentRec) : Nat → CommentRec → Option CTree
  | 0, _ => none
  | fuel+1, c =>
    (kidsForest (buildNode cs fuel) (sortByCreated (repliesOf cs c.id))).map
      (CTree.node c)

/-- Build the top-level list from per-root results, failing if any root
fails. -/
def buildRoots (f : CommentRec → Option CTree) : List CommentRec → Option (List CTree)
  | [] => some []
  | k :: ks =>
    match f k, buildRoots f ks with
    | some t, some ts => some (t :: ts)
    | _, _ => none

/-- The full `commentTree` computation: index, attach, sort the top level by
`createdAt` and recursively sort/build every node. (The source sorts
`topLevel` twice — once directly and once as the first step of
`sortReplies`; sorting an already stably-sorted array again is the
identity, so it is applied once here.) -/
def buildTree (cs : List CommentRec) (fuel : Nat) : Option (List CTree) :=
  buildRoots (buildNode cs fuel) (sortByCreated (topLevelNodes cs))

/-- The builder terminates on input `cs` iff some recursion depth
suffices. -/
def BuildTerminates (cs : List CommentRec) : Prop :=
  ∃ fuel, (buildTree cs fuel).isSome

mutual
/-- All comment records in a built tree, in preorder. -/
def flattenTree : CTree → List CommentRec
  | CTree.node c kids => c :: flattenForest kids
/-- All comment records in a built forest, in preorder. -/
def flattenForest : CForest → List CommentRec
  | CForest.nil => []
  | CForest.cons t ts => flattenTree t ++ flattenForest ts
end

/-- All comment records in a built top-level list. -/
def flattenAll (forest : List CTree) : List CommentRec :=
  forest.flatMap flattenTree

/-- The comment record at a tree's root. -/
def rootRec : CTree → CommentRec
  | CTree.node c _ => c

/-- The parent node a comment gets attached under: `some` exactly when the
attachment test passes, in which case it is the `byId` node for the
parent id. -/
def parentNode (cs : List CommentRec) (c : CommentRec) : Option CommentRec :=
  match c.parentId with
  | none => none
  | some p => if p == "" then none else byIdGet cs p

/-- The parent chain from `c` (following `parentNode`), if it reaches a
parentless comment within `fuel` steps. -/
def chainN (cs : List CommentRec) : Nat → CommentRec → Option (List CommentRec)
  | fuel, c =>
    match parentNode cs c with
    | none => some [c]
    | some p =>
      match fuel with
      | 0 => none
      | fuel+1 => (chainN cs fuel p).map (fun l => c :: l)

/-- The parent chain as an inductive relation: `IsChain cs c l` holds when
`l` is the full parent chain from `c` down to a parentless comment. -/
inductive IsChain (cs : List CommentRec) : CommentRec → List CommentRec → Prop where
  | root (c : CommentRec) (h : parentNode cs c = none) : IsChain cs c [c]
  | step (c p : CommentRec) (l : List CommentRec) (h : parentNode cs c = some p)
      (hp : IsChain cs p l) : IsChain cs c (c :: l)

/-- The parentId references of `cs` form no cycle: every comment's parent
chain reaches a parentless comment (a chain that revisits a comment loops
forever, since each step is determined by the comment alone, so with
`cs.length` distinct comments any cycle-free chain ends within `cs.length`
steps). -/
def NoCycle (cs : List CommentRec) : Prop :=
  ∀ c ∈ cs, (chainN cs cs.length c).isSome

instance (cs : List CommentRec) : Decidable (NoCycle cs) := by
  unfold NoCycle
  infer_instance

instance : DecidableRel (fun a b : CommentRec => a.createdAt ≤ b.createdAt) :=
  fun a b => Nat.decLe a.createdAt b.createdAt

instance : IsTotal CommentRec (fun a b => a.createdAt ≤ b.createdAt) :=
  ⟨fun a b => Nat.le_total a.createdAt b.createdAt⟩

instance : IsTrans CommentRec (fun a b => a.createdAt ≤ b.createdAt) :=
  ⟨fun _ _ _ hab hbc => Nat.le_trans hab hbc⟩

/-- The claim-side root test, as the (amended) claim words it: a comment is
a top-level root when its `parentId` is null, empty, or does not match any
comment id. -/
def claimRootB (cs : List CommentRec) (c : CommentRec) : Bool :=
  match c.parentId with
  | none => true
  | some p => p == "" || !cs.any (fun d => d.id == p)

/-- The trees of a built forest as a list. -/
def forestList : CForest → List CTree
  | CForest.nil => []
  | CForest.cons t ts => t :: forestList ts

mutual
/-- The claim-side description of a built node, recursively: its replies
are exactly the non-root comments whose `parentId` is this node's id,
sorted by `createdAt` ascending and stably so (comments with equal
timestamps keep their original relative order — expressed by the
per-timestamp filter equality), and every reply satisfies the same
description. -/
def TreeOK (cs : List CommentRec) : CTree → Prop
  | CTree.node c kids =>
      List.Sorted (fun a b : CommentRec => a.createdAt ≤ b.createdAt)
          ((forestList kids).map rootRec)
      ∧ (∀ ts : Nat, ((forestList kids).map rootRec).filter (fun d => d.createdAt == ts)
          = (cs.filter (fun d => !claimRootB cs d && d.parentId == some c.id)).filter
              (fun d => d.createdAt == ts))
      ∧ ForestOK cs kids
/-- `TreeOK` for every tree of a forest. -/
def ForestOK (cs : List CommentRec) : CForest → Prop
  | CForest.nil => True
  | CForest.cons t ts => TreeOK cs t ∧ ForestOK cs ts
end

/-- `d` descends from `c` through parent references: `c` lies on `d`'s
parent chain. -/
def descends (cs : List CommentRec) (d c : CommentRec) : Bool :=
  match chainN cs cs.length d with
  | some l => decide (c ∈ l)
  | none => false

/-- The spec's concrete four-comment regression example (§8):
ids 1–4, timestamps 10/20/5/1, comment 2 and 3 under 1, comment 4 with the
dangling parent 99. -/
def exComments : List CommentRec :=
  [⟨"1", none, 10⟩, ⟨"2", some "1", 20⟩, ⟨"3", some "1", 5⟩, ⟨"4", some "99", 1⟩]

/-- The tree the spec's example must produce: roots `[4 (t1), 1 (t10)]`,
and id 1's replies `[3 (t5), 2 (t20)]`. -/
def exTree : List CTree :=
  [ CTree.node ⟨"4", some "99", 1⟩ CForest.nil,
    CTree.node ⟨"1", none, 10⟩
      (CForest.cons (CTree.node ⟨"3", some "1", 5⟩ CForest.nil)
        (CForest.cons (CTree.node ⟨"2", some "1", 20⟩ CForest.nil) CForest.nil)) ]

/-- A comment list with an empty-string id and a comment whose `parentId`
is the empty string: the parent id matches a comment id, but the JavaScript
truthiness test roots the child anyway. -/
def csEmptyId : List CommentRec :=
  [⟨"", none, 0⟩, ⟨"x", some "", 1⟩]

/-- A duplicate-id comment list (two top-level comments with id 1): the
`byId` index keeps only the last, so the first comment is lost and the
second is placed twice. -/
def csDup : List CommentRec :=
  [⟨"1", none, 0⟩, ⟨"1", none, 1⟩]

/-- A duplicate-id comment list whose parent references form a cycle that
is reachable from the top level: the first occurrence of id 1 is parentless
(so the `byId` node for id 1 lands in `topLevel`), but that node is the
second occurrence, whose parent is 2, and 2's parent is 1 — the recursive
sort then follows the 1 → 2 → 1 reference cycle forever. -/
def csCyc : List CommentRec :=
  [⟨"1", none, 0⟩, ⟨"1", some "2", 0⟩, ⟨"2", some "1", 0⟩]

/-- Shorthand for the two cycle nodes of `csCyc`. -/
def cycB : CommentRec := ⟨"1", some "2", 0⟩

/-- Shorthand for the second cycle node of `csCyc`. -/
def cycC : CommentRec := ⟨"2", some "1", 0⟩

/-- A parent-reference cycle between two comments with distinct ids: both
comments attach under each other, neither reaches `topLevel`, and the
builder terminates (returning an empty forest). -/
def csCycNodup : List CommentRec :=
  [⟨"1", some "2", 0⟩, ⟨"2", some "1", 0⟩]

/-! ## Theorems -/

/-! ### Pipeline claims -/

/-- Claim C1 counterexample: with stage table `[A(80%)]` and a single item
whose stage id `Z` does not exist in the table, constructing the rollup
does not fail — it returns a normal summary list in which the item is
counted in no per-stage summary (every count is 0), i.e. the item is
silently dropped rather than raising a `MissingReferenceError`. -/
theorem pipelineRollup_missing_stage_not_failfast :
    calculatePipelineSummaryWith [⟨"A", "A案件", 80, "", "", ""⟩]
        [⟨"X1", "案件X", 5, "Z", 1, "顧客X", "担当X"⟩]
      = [{ stage := "A", count := 0, totalAmount := 0, weightedAmount := 0 }]
    ∧ ∀ s ∈ calculatePipelineSummaryWith [⟨"A", "A案件", 80, "", "", ""⟩]
        [⟨"X1", "案件X", 5, "Z", 1, "顧客X", "担当X"⟩], s.count = 0 := by
  constructor
  · simp [calculatePipelineSummaryWith]
  · intro s hs
    simp [calculatePipelineSummaryWith] at hs
    simp [hs]

/-- Claim C1 (amended): the rollup never fails fast; a pipeline item whose
stage id does not exist in the stage configuration table is silently
excluded from every per-stage summary — removing all such items leaves the
entire rollup unchanged. -/
theorem pipelineRollup_drops_unknown_stages :
    ∀ (stages : List PipelineStageConfig) (items : List PipelineItem),
      calculatePipelineSummaryWith stages
          (items.filter (fun p => stages.any (fun s => s.id == p.stage)))
        = calculatePipelineSummaryWith stages items := by
  intro stages items
  unfold calculatePipelineSummaryWith
  apply List.map_congr_left
  intro stage hstage
  have hf : (items.filter (fun p => stages.any (fun s => s.id == p.stage))).filter
        (fun p => p.stage == stage.id)
      = items.filter (fun p => p.stage == stage.id) := by
    rw [List.filter_filter]
    apply List.filter_congr
    intro p _
    by_cases h : p.stage = stage.id
    · simp [h]
      exact ⟨stage, hstage, rfl⟩
    · simp [h]
  rw [hf]

/-- Rewriting a `foldl` accumulation of `ℚ` values as a mapped sum. -/
theorem foldl_add_eq_sum {α : Type} (f : α → ℚ) :
    ∀ (l : List α) (a : ℚ), l.foldl (fun s x => s + f x) a = a + (l.map f).sum := by
  intro l
  induction l with
  | nil => simp
  | cons x xs ih =>
    intro a
    simp only [List.foldl_cons, List.map_cons, List.sum_cons, ih, add_assoc]

/-- Claim C5 counterexample: with probability 50 ∈ [0,100] but a negative
item amount, the gross total (−10) is strictly below the weighted total
(−5), so the claimed inequality fails for arbitrary item lists. -/
theorem grossTotal_lt_weightedTotal_on_negative_amount :
    getGrossTotalWith [⟨"A", "A案件", 50, "", "", ""⟩]
        [⟨"X1", "案件X", -10, "A", 1, "顧客X", "担当X"⟩]
      < getWeightedTotalWith [⟨"A", "A案件", 50, "", "", ""⟩]
        [⟨"X1", "案件X", -10, "A", 1, "顧客X", "担当X"⟩] := by
  simp [getGrossTotalWith, getWeightedTotalWith, calculatePipelineSummaryWith]
  norm_num

/-- Claim C5 (amended): for every pipeline item list with nonnegative
amounts and every stage configuration with probabilities in [0,100], the
gross total is at least the weighted total. -/
theorem weightedTotal_le_grossTotal (stages : List PipelineStageConfig)
    (items : List PipelineItem)
    (hprob : ∀ s ∈ stages, 0 ≤ s.probability ∧ s.probability ≤ 100)
    (hamount : ∀ p ∈ items, 0 ≤ p.amount) :
    getWeightedTotalWith stages items ≤ getGrossTotalWith stages items := by
  unfold getWeightedTotalWith getGrossTotalWith
  rw [foldl_add_eq_sum, foldl_add_eq_sum]
  simp only [zero_add]
  apply List.sum_le_sum
  intro s hs
  unfold calculatePipelineSummaryWith at hs
  obtain ⟨stage, hstage, rfl⟩ := List.mem_map.mp hs
  simp only
  rw [foldl_add_eq_sum, zero_add]
  have htot : 0 ≤ ((items.filter (fun p => p.stage == stage.id)).map
      (fun item => item.amount)).sum := by
    apply List.sum_nonneg
    intro x hx
    obtain ⟨p, hp, rfl⟩ := List.mem_map.mp hx
    exact hamount p (List.mem_of_mem_filter hp)
  have hp1 : stage.probability / 100 ≤ 1 :=
    div_le_one_of_le₀ (hprob stage hstage).2 (by norm_num)
  calc ((items.filter (fun p => p.stage == stage.id)).map (fun item => item.amount)).sum
        * (stage.probability / 100)
      ≤ ((items.filter (fun p => p.stage == stage.id)).map (fun item => item.amount)).sum
        * 1 := by
        apply mul_le_mul_of_nonneg_left hp1 htot
    _ = _ := by ring

/-- Claim C5 witness: the repository's own demo stages and items satisfy the
hypotheses, and the inequality holds there. -/
theorem weightedTotal_le_grossTotal_witness :
    (∀ s ∈ pipelineStages, 0 ≤ s.probability ∧ s.probability ≤ 100)
    ∧ (∀ p ∈ pipelineData, 0 ≤ p.amount)
    ∧ getWeightedTotalWith pipelineStages pipelineData
        ≤ getGrossTotalWith pipelineStages pipelineData := by
  have h1 : ∀ s ∈ pipelineStages, 0 ≤ s.probability ∧ s.probability ≤ 100 := by
    intro s hs
    fin_cases hs <;> norm_num
  have h2 : ∀ p ∈ pipelineData, 0 ≤ p.amount := by
    intro p hp
    fin_cases hp <;> norm_num
  exact ⟨h1, h2, weightedTotal_le_grossTotal pipelineStages pipelineData h1 h2⟩

/-! ### Status classification claim -/

/-- Claim C7: the status classification maps a null variance rate to
pending and otherwise, with `effective = rate` when `isHigherBetter` and
`-rate` when not, yields good for `effective ≥ 0`, warning for
`-5 ≤ effective < 0` and critical for `effective < -5`: `varColor`
computes exactly the colour of the spec's classification. -/
theorem varColor_eq_classifySpec :
    ∀ (rate : Option ℚ) (isHigherBetter : Bool),
      varColor rate isHigherBetter = statusColor (classifySpec rate isHigherBetter) := by
  intro rate ihb
  cases rate with
  | none => rfl
  | some r =>
    simp only [varColor, classifySpec]
    by_cases h1 : (if ihb then r else -r) ≥ 0
    · simp [h1, statusColor]
    · by_cases h2 : (if ihb then r else -r) ≥ -5
      · have h3 : -5 ≤ (if ihb then r else -r) ∧ (if ihb then r else -r) < 0 :=
          ⟨h2, lt_of_not_ge h1⟩
        simp [h1, h2, h3, statusColor]
      · have h3 : ¬(-5 ≤ (if ihb then r else -r) ∧ (if ihb then r else -r) < 0) := by
          intro h
          exact h2 h.1
        simp [h1, h2, h3, statusColor]

/-! ### Notification claim -/

/-- Claim C8: `markAllRead` is idempotent — applying it twice yields exactly
the same notification read-state as applying it once. -/
theorem handleMarkAllAsRead_idempotent :
    ∀ ns : List NotificationRec,
      handleMarkAllAsRead (handleMarkAllAsRead ns) = handleMarkAllAsRead ns := by
  intro ns
  simp [handleMarkAllAsRead]

/-! ### YTD / forecast claim -/

/-- Claim C9 (spec-modelled): when `asOfMonth` is the last month of the
fiscal year and that month is closed, the forecast equals the YTD actual
sum exactly — the remaining-open-months budget window is empty. -/
theorem forecast_eq_ytd_on_final_closed_month (dataset : List MonthRecord)
    (asOfMonth : Nat)
    (hlast : ∀ m ∈ dataset, m.month ≤ asOfMonth)
    (hclosed : ∃ m ∈ dataset, m.month = asOfMonth ∧ m.isClosed = true) :
    (computeYTD dataset asOfMonth).1 = some (computeForecast dataset asOfMonth) := by
  unfold computeYTD computeForecast
  have h1 : dataset.filter (fun m => m.isClosed && decide (m.month ≤ asOfMonth))
      = dataset.filter (fun m => m.isClosed) := by
    apply List.filter_congr
    intro m hm
    simp [hlast m hm]
  have h2 : dataset.filter (fun m => !m.isClosed && decide (asOfMonth < m.month)) = [] := by
    rw [List.filter_eq_nil_iff]
    intro m hm
    have := hlast m hm
    simp
    intro _
    omega
  rw [h1, h2]
  obtain ⟨m, hm, hmon, hc⟩ := hclosed
  have hmem : m ∈ dataset.filter (fun m => m.isClosed) :=
    List.mem_filter.mpr ⟨hm, by simp [hc]⟩
  have hne : (dataset.filter (fun m => m.isClosed)).isEmpty = false := by
    rw [List.isEmpty_eq_false_iff_exists_mem]
    exact ⟨m, hmem⟩
  simp [hne]

/-- Claim C9 witness: a two-month fiscal year, both months closed, queried
as of the final month 2 — the YTD actual equals the forecast. -/
theorem forecast_eq_ytd_witness :
    (∀ m ∈ [(⟨1, true, some 10, 12⟩ : MonthRecord), ⟨2, true, some 20, 15⟩], m.month ≤ 2)
    ∧ (∃ m ∈ [(⟨1, true, some 10, 12⟩ : MonthRecord), ⟨2, true, some 20, 15⟩],
        m.month = 2 ∧ m.isClosed = true)
    ∧ (computeYTD [(⟨1, true, some 10, 12⟩ : MonthRecord), ⟨2, true, some 20, 15⟩] 2).1
        = some (computeForecast
            [(⟨1, true, some 10, 12⟩ : MonthRecord), ⟨2, true, some 20, 15⟩] 2) := by
  refine ⟨?_, ?_, forecast_eq_ytd_on_final_closed_month _ _ ?_ ?_⟩ <;>
    simp

/-! ### Reaction toggle claim -/

/-- Under the no-duplicate-emoji invariant, two entries with the same emoji
are the same entry. -/
theorem reaction_emoji_unique {rs : List ReactionEntry} (he : EmojisNodup rs)
    {r1 r2 : ReactionEntry} (h1 : r1 ∈ rs) (h2 : r2 ∈ rs) (h : r1.emoji = r2.emoji) :
    r1 = r2 :=
  List.inj_on_of_nodup_map he h1 h2 h

/-- Branch equation of `toggleReaction`: no entry for the emoji exists. -/
theorem toggleReaction_new_eq {rs : List ReactionEntry} {e : String} (u : String)
    (h : rs.find? (fun r => r.emoji == e) = none) :
    toggleReaction rs e u = rs ++ [{ emoji := e, users := [u] }] := by
  simp only [toggleReaction, h]

/-- Branch equation of `toggleReaction`: the entry exists and already
contains the user. -/
theorem toggleReaction_remove_eq {rs : List ReactionEntry} {e u : String}
    {ex : ReactionEntry} (h : rs.find? (fun r => r.emoji == e) = some ex)
    (hc : ex.users.contains u = true) :
    toggleReaction rs e u
      = (rs.map (fun r => if r.emoji == e then
            { r with users := r.users.filter (fun v => v != u) } else r)).filter
          (fun r => 0 < r.users.length) := by
  simp only [toggleReaction, h, hc, if_true]

/-- Branch equation of `toggleReaction`: the entry exists without the
user. -/
theorem toggleReaction_add_eq {rs : List ReactionEntry} {e u : String}
    {ex : ReactionEntry} (h : rs.find? (fun r => r.emoji == e) = some ex)
    (hc : ex.users.contains u = false) :
    toggleReaction rs e u
      = rs.map (fun r => if r.emoji == e then
          { r with users := r.users ++ [u] } else r) := by
  simp only [toggleReaction, h, hc, Bool.false_eq_true, if_false]

/-- A single toggle flips exactly the membership of the pair `(e, u)` and
leaves every other (emoji, user) membership unchanged. -/
theorem hasReaction_toggle (rs : List ReactionEntry) (e u : String)
    (he : EmojisNodup rs) (em x : String) :
    hasReaction (toggleReaction rs e u) em x ↔
      (if em = e ∧ x = u then ¬ hasReaction rs e u else hasReaction rs em x) := by
  cases hfind : rs.find? (fun r => r.emoji == e) with
  | none =>
    rw [toggleReaction_new_eq u hfind]
    have hnone : ∀ r ∈ rs, r.emoji ≠ e := by
      intro r hr
      have := List.find?_eq_none.mp hfind r hr
      simpa using this
    have hnR : ¬ hasReaction rs e u := by
      rintro ⟨r, hr, hre, _⟩
      exact hnone r hr hre
    by_cases hemx : em = e ∧ x = u
    · obtain ⟨rfl, rfl⟩ := hemx
      simp only [if_pos (And.intro rfl rfl)]
      refine iff_of_true ⟨⟨em, [x]⟩, ?_, rfl, List.mem_singleton_self x⟩ hnR
      simp
    · rw [if_neg hemx]
      constructor
      · rintro ⟨r, hr, hre, hxr⟩
        rcases List.mem_append.mp hr with hr | hr
        · exact ⟨r, hr, hre, hxr⟩
        · exfalso
          rw [List.mem_singleton] at hr
          subst hr
          simp only [List.mem_singleton] at hxr
          exact hemx ⟨hre.symm, hxr⟩
      · rintro ⟨r, hr, hre, hxr⟩
        exact ⟨r, List.mem_append.mpr (Or.inl hr), hre, hxr⟩
  | some ex =>
    have hex : ex ∈ rs := List.mem_of_find?_eq_some hfind
    have hexe : ex.emoji = e := by
      have := List.find?_some hfind
      simpa using this
    have huniq : ∀ r ∈ rs, r.emoji = e → r = ex := fun r hr hre =>
      reaction_emoji_unique he hr hex (hre.trans hexe.symm)
    have hRe : ∀ y, hasReaction rs e y ↔ y ∈ ex.users := by
      intro y
      constructor
      · rintro ⟨r, hr, hre, hyr⟩
        rwa [huniq r hr hre] at hyr
      · intro hy
        exact ⟨ex, hex, hexe, hy⟩
    by_cases hc : ex.users.contains u
    · rw [toggleReaction_remove_eq hfind hc]
      have hru : hasReaction rs e u := (hRe u).mpr (by simpa using hc)
      have hchar : hasReaction
          ((rs.map (fun r => if r.emoji == e then
              { r with users := r.users.filter (fun v => v != u) } else r)).filter
            (fun r => 0 < r.users.length)) em x
          ↔ hasReaction rs em x ∧ ¬(em = e ∧ x = u) := by
        constructor
        · rintro ⟨r', hr', hre', hxr'⟩
          rw [List.mem_filter] at hr'
          obtain ⟨hmap, _⟩ := hr'
          obtain ⟨r₀, hr₀, rfl⟩ := List.mem_map.mp hmap
          by_cases h0 : r₀.emoji = e
          · rw [if_pos (by simpa using h0)] at hre' hxr'
            simp only at hre' hxr'
            rw [List.mem_filter] at hxr'
            obtain ⟨hxu, hxne⟩ := hxr'
            refine ⟨⟨r₀, hr₀, hre', hxu⟩, ?_⟩
            rintro ⟨-, rfl⟩
            simp at hxne
          · rw [if_neg (by simpa using h0)] at hre' hxr'
            refine ⟨⟨r₀, hr₀, hre', hxr'⟩, ?_⟩
            rintro ⟨rfl, -⟩
            exact h0 hre'
        · rintro ⟨⟨r₁, hr₁, hre₁, hxr₁⟩, hnemx⟩
          by_cases h1 : r₁.emoji = e
          · have hr₁ex : r₁ = ex := huniq r₁ hr₁ h1
            subst hr₁ex
            have hxu : x ≠ u := by
              intro hxu
              exact hnemx ⟨hre₁.symm.trans h1, hxu⟩
            refine ⟨{ r₁ with users := r₁.users.filter (fun v => v != u) }, ?_, hre₁, ?_⟩
            · rw [List.mem_filter]
              constructor
              · exact List.mem_map.mpr ⟨r₁, hr₁, by rw [if_pos (by simpa using h1)]⟩
              · simp only [decide_eq_true_eq]
                exact List.length_pos_iff_exists_mem.mpr
                  ⟨x, List.mem_filter.mpr ⟨hxr₁, by simpa using hxu⟩⟩
            · exact List.mem_filter.mpr ⟨hxr₁, by simpa using hxu⟩
          · refine ⟨r₁, ?_, hre₁, hxr₁⟩
            rw [List.mem_filter]
            constructor
            · exact List.mem_map.mpr ⟨r₁, hr₁, by rw [if_neg (by simpa using h1)]⟩
            · simp only [decide_eq_true_eq]
              exact List.length_pos_iff_exists_mem.mpr ⟨x, hxr₁⟩
      rw [hchar]
      by_cases hemx : em = e ∧ x = u
      · simp [hemx, hru]
      · simp [hemx]
    · rw [toggleReaction_add_eq hfind (by simpa using hc)]
      have hnu : u ∉ ex.users := by simpa using hc
      have hnru : ¬ hasReaction rs e u := fun h => hnu ((hRe u).mp h)
      have hchar : hasReaction
          (rs.map (fun r => if r.emoji == e then
              { r with users := r.users ++ [u] } else r)) em x
          ↔ hasReaction rs em x ∨ (em = e ∧ x = u) := by
        constructor
        · rintro ⟨r', hr', hre', hxr'⟩
          obtain ⟨r₀, hr₀, rfl⟩ := List.mem_map.mp hr'
          by_cases h0 : r₀.emoji = e
          · rw [if_pos (by simpa using h0)] at hre' hxr'
            simp only at hre' hxr'
            rcases List.mem_append.mp hxr' with hxu | hxu
            · exact Or.inl ⟨r₀, hr₀, hre', hxu⟩
            · rw [List.mem_singleton] at hxu
              exact Or.inr ⟨hre'.symm.trans h0, hxu⟩
          · rw [if_neg (by simpa using h0)] at hre' hxr'
            exact Or.inl ⟨r₀, hr₀, hre', hxr'⟩
        · rintro (⟨r₁, hr₁, hre₁, hxr₁⟩ | ⟨rfl, rfl⟩)
          · by_cases h1 : r₁.emoji = e
            · have hr₁ex : r₁ = ex := huniq r₁ hr₁ h1
              refine ⟨{ r₁ with users := r₁.users ++ [u] }, ?_, hre₁, ?_⟩
              · exact List.mem_map.mpr ⟨r₁, hr₁, by rw [if_pos (by simpa using h1)]⟩
              · exact List.mem_append.mpr (Or.inl hxr₁)
            · refine ⟨r₁, ?_, hre₁, hxr₁⟩
              exact List.mem_map.mpr ⟨r₁, hr₁, by rw [if_neg (by simpa using h1)]⟩
          · refine ⟨{ ex with users := ex.users ++ [x] }, ?_, hexe, ?_⟩
            · exact List.mem_map.mpr ⟨ex, hex, by rw [if_pos (by simpa using hexe)]⟩
            · exact List.mem_append.mpr (Or.inr (List.mem_singleton_self x))
      rw [hchar]
      by_cases hemx : em = e ∧ x = u
      · simp [hemx, hnru]
      · simp [hemx]

/-- A toggle preserves the no-duplicate-emoji invariant. -/
theorem toggle_emojisNodup (rs : List ReactionEntry) (e u : String)
    (he : EmojisNodup rs) : EmojisNodup (toggleReaction rs e u) := by
  cases hfind : rs.find? (fun r => r.emoji == e) with
  | none =>
    rw [toggleReaction_new_eq u hfind]
    have hnone : ∀ r ∈ rs, r.emoji ≠ e := by
      intro r hr
      have := List.find?_eq_none.mp hfind r hr
      simpa using this
    unfold EmojisNodup at he ⊢
    rw [List.map_append]
    rw [List.nodup_append]
    refine ⟨he, List.nodup_singleton _, ?_⟩
    intro a ha hb
    simp only [List.map_cons, List.map_nil, List.mem_singleton] at hb
    obtain ⟨r, hr, rfl⟩ := List.mem_map.mp ha
    exact hnone r hr hb
  | some ex =>
    have hmapse : ∀ (f : ReactionEntry → List String),
        (rs.map (fun r => if r.emoji == e then { r with users := f r } else r)).map
            (fun r => r.emoji)
          = rs.map (fun r => r.emoji) := by
      intro f
      rw [List.map_map]
      apply List.map_congr_left
      intro r _
      by_cases h : r.emoji = e
      · simp [h]
      · simp [h]
    by_cases hc : ex.users.contains u
    · rw [toggleReaction_remove_eq hfind hc]
      unfold EmojisNodup at he ⊢
      have hsub : List.Sublist
          (((rs.map (fun r => if r.emoji == e then
            { r with users := r.users.filter (fun v => v != u) } else r)).filter
              (fun r => 0 < r.users.length)).map (fun r => r.emoji))
          ((rs.map (fun r => if r.emoji == e then
            { r with users := r.users.filter (fun v => v != u) } else r)).map
              (fun r => r.emoji)) :=
        List.Sublist.map _ (List.filter_sublist _)
      rw [hmapse (fun r => r.users.filter (fun v => v != u))] at hsub
      exact he.sublist hsub
    · rw [toggleReaction_add_eq hfind (by simpa using hc)]
      unfold EmojisNodup at he ⊢
      rw [hmapse (fun r => r.users ++ [u])]
      exact he

/-- A toggle never produces a duplicated userId within one emoji's user
list. -/
theorem toggle_usersNodup (rs : List ReactionEntry) (e u : String)
    (he : EmojisNodup rs) (hu : UsersNodup rs) : UsersNodup (toggleReaction rs e u) := by
  cases hfind : rs.find? (fun r => r.emoji == e) with
  | none =>
    rw [toggleReaction_new_eq u hfind]
    intro r hr
    rcases List.mem_append.mp hr with hr | hr
    · exact hu r hr
    · rw [List.mem_singleton] at hr
      subst hr
      exact List.nodup_singleton u
  | some ex =>
    have hex : ex ∈ rs := List.mem_of_find?_eq_some hfind
    have hexe : ex.emoji = e := by
      have := List.find?_some hfind
      simpa using this
    have huniq : ∀ r ∈ rs, r.emoji = e → r = ex := fun r hr hre =>
      reaction_emoji_unique he hr hex (hre.trans hexe.symm)
    by_cases hc : ex.users.contains u
    · rw [toggleReaction_remove_eq hfind hc]
      intro r hr
      rw [List.mem_filter] at hr
      obtain ⟨r₀, hr₀, rfl⟩ := List.mem_map.mp hr.1
      by_cases h0 : r₀.emoji = e
      · rw [if_pos (by simpa using h0)]
        exact (hu r₀ hr₀).filter _
      · rw [if_neg (by simpa using h0)]
        exact hu r₀ hr₀
    · rw [toggleReaction_add_eq hfind (by simpa using hc)]
      have hnu : u ∉ ex.users := by simpa using hc
      intro r hr
      obtain ⟨r₀, hr₀, rfl⟩ := List.mem_map.mp hr
      by_cases h0 : r₀.emoji = e
      · rw [if_pos (by simpa using h0)]
        simp only
        rw [List.nodup_append]
        refine ⟨hu r₀ hr₀, List.nodup_singleton u, ?_⟩
        intro a ha hb
        rw [List.mem_singleton] at hb
        subst hb
        rw [huniq r₀ hr₀ h0] at ha
        exact hnu ha
      · rw [if_neg (by simpa using h0)]
        exact hu r₀ hr₀

/-- Claim C2 counterexample: as literally stated over the list form the
claim fails. Double-toggling user u1 on `[{👍, [u1, u2]}]` yields
`[{👍, [u2, u1]}]`, not the original list (the user moves to the end of
the entry), and on a state with a duplicated 👍 entry — which the claim's
"for every comment/activity" quantifier admits — a single toggle produces
the duplicated userId `u1` inside one entry's user list. -/
theorem toggleReaction_not_list_identity :
    toggleReaction (toggleReaction [⟨"👍", ["u1", "u2"]⟩] "👍" "u1") "👍" "u1"
        ≠ [⟨"👍", ["u1", "u2"]⟩]
    ∧ ¬ UsersNodup (toggleReaction [⟨"👍", ["u2"]⟩, ⟨"👍", ["u1"]⟩] "👍" "u1") := by
  constructor
  · decide
  · decide

/-- Claim C2 (amended): on reaction states satisfying the data-model
invariants (no two entries with the same emoji, no duplicated userId within
an entry), toggling `(e, u)` twice returns a reaction state with exactly the
same (emoji, user) memberships as the original — equality in the set
semantics the spec prescribes — and a single toggle never produces a
duplicate of the same userId within one emoji's user list. -/
theorem toggleReaction_double_cancel (rs : List ReactionEntry) (e u : String)
    (he : EmojisNodup rs) (hu : UsersNodup rs) :
    (∀ em x, hasReaction (toggleReaction (toggleReaction rs e u) e u) em x
        ↔ hasReaction rs em x)
    ∧ UsersNodup (toggleReaction rs e u) := by
  refine ⟨?_, toggle_usersNodup rs e u he hu⟩
  intro em x
  rw [hasReaction_toggle _ e u (toggle_emojisNodup rs e u he) em x]
  by_cases hemx : em = e ∧ x = u
  · rw [if_pos hemx]
    obtain ⟨rfl, rfl⟩ := hemx
    rw [hasReaction_toggle rs em x he em x, if_pos ⟨rfl, rfl⟩, not_not]
  · rw [if_neg hemx]
    rw [hasReaction_toggle rs e u he em x, if_neg hemx]

/-- Claim C2 witness: the singleton state `[{👍, [u1]}]` satisfies both
invariants; double-toggling `(👍, u1)` preserves the membership of the pair
`(👍, u1)`, and the intermediate single toggle has duplicate-free user
lists. -/
theorem toggleReaction_double_cancel_witness :
    EmojisNodup [⟨"👍", ["u1"]⟩] ∧ UsersNodup [⟨"👍", ["u1"]⟩]
    ∧ (hasReaction (toggleReaction (toggleReaction [⟨"👍", ["u1"]⟩] "👍" "u1") "👍" "u1")
          "👍" "u1"
        ↔ hasReaction [⟨"👍", ["u1"]⟩] "👍" "u1")
    ∧ UsersNodup (toggleReaction [⟨"👍", ["u1"]⟩] "👍" "u1") :=
  ⟨by decide, by decide,
    (toggleReaction_double_cancel [⟨"👍", ["u1"]⟩] "👍" "u1" (by decide) (by decide)).1
      "👍" "u1",
    (toggleReaction_double_cancel [⟨"👍", ["u1"]⟩] "👍" "u1" (by decide) (by decide)).2⟩

/-! ### Mention extraction claim -/

/-- The accumulator invariant of the mention-extraction loop: folding the
remaining tokens extends the accumulator with the first-occurrence
deduplication of the resolved ids not already collected. -/
theorem extractMentions_fold (users : List DirUser) :
    ∀ (toks : List String) (acc : List String),
      toks.foldl (fun extractedMentions mentionName =>
          match users.find? (fun u => u.name == mentionName) with
          | some user =>
            if extractedMentions.contains user.id then extractedMentions
            else extractedMentions ++ [user.id]
          | none => extractedMentions) acc
        = acc ++ firstDedup ((toks.filterMap (resolveToken users)).filter
            (fun i => !acc.contains i)) := by
  intro toks
  induction toks with
  | nil =>
    intro acc
    simp [firstDedup]
  | cons tok toks ih =>
    intro acc
    rw [List.foldl_cons]
    cases hf : users.find? (fun u => u.name == tok) with
    | none =>
      simp only [hf]
      have hr : resolveToken users tok = none := by
        simp [resolveToken, hf]
      simp only [List.filterMap_cons, hr]
      exact ih acc
    | some user =>
      simp only [hf]
      have hr : resolveToken users tok = some user.id := by
        simp [resolveToken, hf]
      simp only [List.filterMap_cons, hr]
      by_cases hc : acc.contains user.id
      · have hmem : user.id ∈ acc := by simpa [List.contains] using hc
        rw [if_pos hc, List.filter_cons, if_neg (by simp [hmem])]
        exact ih acc
      · have hmem : user.id ∉ acc := by simpa [List.contains] using hc
        rw [if_neg hc, List.filter_cons, if_pos (by simp [hmem])]
        rw [ih (acc ++ [user.id]), List.append_assoc]
        congr 1
        rw [List.singleton_append]
        simp only [firstDedup]
        congr 1
        rw [List.filter_filter]
        congr 1
        apply List.filter_congr
        intro b _
        by_cases hb : b = user.id
        · subst hb
          simp [List.contains]
        · simp [List.contains, hb]

/-- Claim C6: mention extraction tokenizes the body into @-tokens (each `@`
followed by the maximal nonempty run of non-whitespace characters), resolves
each token against the user directory by exact name equality, ignores
unresolved tokens, and collapses duplicate mentions of the same user to one
entry in first-occurrence order. -/
theorem extractMentions_spec :
    ∀ (users : List DirUser) (content : String),
      extractMentions users content
        = firstDedup ((mentionTokens content.data).filterMap (resolveToken users)) := by
  intro users content
  unfold extractMentions
  rw [extractMentions_fold]
  rw [List.nil_append]
  congr 1
  apply List.filter_eq_self.mpr
  intro a _
  simp

/-! ### Comment tree claims: infrastructure -/

/-- Folding the `byId` indexing step from an arbitrary accumulator: the last
matching comment wins, falling back to the accumulator. -/
theorem byIdGet_foldl (i : String) :
    ∀ (cs : List CommentRec) (acc : Option CommentRec),
      cs.foldl (fun a c => if c.id == i then some c else a) acc
        = (byIdGet cs i).or acc := by
  intro cs
  induction cs with
  | nil =>
    intro acc
    simp [byIdGet]
  | cons c cs ih =>
    intro acc
    rw [List.foldl_cons, ih]
    have hcons : byIdGet (c :: cs) i
        = (byIdGet cs i).or (if c.id == i then some c else none) := by
      unfold byIdGet
      rw [List.foldl_cons, ih]
      rfl
    rw [hcons]
    cases hby : byIdGet cs i with
    | some v => simp [Option.or]
    | none =>
      by_cases h : c.id == i
      · simp [h, Option.or]
      · simp [h, Option.or]

/-- `byId` lookup on a cons cell. -/
theorem byIdGet_cons (c : CommentRec) (cs : List CommentRec) (i : String) :
    byIdGet (c :: cs) i = (byIdGet cs i).or (if c.id == i then some c else none) := by
  unfold byIdGet
  rw [List.foldl_cons, byIdGet_foldl]
  rfl

/-- A successful `byId` lookup returns a list member carrying the looked-up
id. -/
theorem byIdGet_eq_some {cs : List CommentRec} {i : String} {c : CommentRec}
    (h : byIdGet cs i = some c) : c ∈ cs ∧ c.id = i := by
  induction cs with
  | nil => simp [byIdGet] at h
  | cons d cs ih =>
    rw [byIdGet_cons] at h
    cases hby : byIdGet cs i with
    | some v =>
      rw [hby] at h
      simp [Option.or] at h
      subst h
      obtain ⟨hm, hid⟩ := ih hby
      exact ⟨List.mem_cons_of_mem d hm, hid⟩
    | none =>
      rw [hby] at h
      by_cases hd : d.id == i
      · rw [if_pos hd] at h
        simp [Option.or] at h
        subst h
        exact ⟨List.mem_cons_self d cs, by simpa using hd⟩
      · rw [if_neg hd] at h
        simp [Option.or] at h

/-- `byId` lookup misses exactly when no comment has the id. -/
theorem byIdGet_eq_none_iff (cs : List CommentRec) (i : String) :
    byIdGet cs i = none ↔ ∀ c ∈ cs, c.id ≠ i := by
  induction cs with
  | nil => simp [byIdGet]
  | cons d cs ih =>
    rw [byIdGet_cons]
    constructor
    · intro h
      cases hby : byIdGet cs i with
      | some v => rw [hby] at h; simp [Option.or] at h
      | none =>
        rw [hby] at h
        intro c hc
        rcases List.mem_cons.mp hc with rfl | hc
        · intro hid
          rw [if_pos (by simpa using hid)] at h
          simp [Option.or] at h
        · exact (ih.mp hby) c hc
    · intro h
      have h1 : byIdGet cs i = none := ih.mpr (fun c hc => h c (List.mem_cons_of_mem d hc))
      rw [h1, if_neg (by simpa using h d (List.mem_cons_self d cs))]
      rfl

/-- `byId.has` holds exactly when some comment has the id. -/
theorem byIdHas_iff (cs : List CommentRec) (i : String) :
    byIdHas cs i = true ↔ ∃ c ∈ cs, c.id = i := by
  unfold byIdHas
  constructor
  · intro h
    cases hby : byIdGet cs i with
    | none => rw [hby] at h; simp at h
    | some c =>
      obtain ⟨hm, hid⟩ := byIdGet_eq_some hby
      exact ⟨c, hm, hid⟩
  · rintro ⟨c, hc, rfl⟩
    cases hby : byIdGet cs c.id with
    | some v => rfl
    | none =>
      exact absurd rfl ((byIdGet_eq_none_iff cs c.id).mp hby c hc)

/-- With pairwise-distinct ids, the `byId` node of a member is the member
itself. -/
theorem byIdGet_self {cs : List CommentRec}
    (hN : (cs.map (fun c => c.id)).Nodup) {c : CommentRec} (hc : c ∈ cs) :
    byIdGet cs c.id = some c := by
  induction cs with
  | nil => cases hc
  | cons d cs ih =>
    rw [List.map_cons, List.nodup_cons] at hN
    obtain ⟨hd, hN2⟩ := hN
    rw [byIdGet_cons]
    rcases List.mem_cons.mp hc with rfl | hc
    · have hnone : byIdGet cs c.id = none := by
        rw [byIdGet_eq_none_iff]
        intro e he hid
        exact hd (List.mem_map.mpr ⟨e, he, hid⟩)
      rw [hnone, if_pos (by simp)]
      rfl
    · rw [ih hN2 hc]
      simp [Option.or]

/-- `filterMap` by a function that returns each element unchanged is the
identity. -/
theorem filterMap_id_of {α : Type} (f : α → Option α) :
    ∀ (l : List α), (∀ a ∈ l, f a = some a) → l.filterMap f = l := by
  intro l
  induction l with
  | nil => intro _; rfl
  | cons a l ih =>
    intro h
    rw [List.filterMap_cons, h a (List.mem_cons_self a l),
      ih (fun b hb => h b (List.mem_cons_of_mem a hb))]

/-- With distinct ids the top-level array is just the filter of the
non-attachable comments, in input order. -/
theorem topLevelNodes_eq {cs : List CommentRec}
    (hN : (cs.map (fun c => c.id)).Nodup) :
    topLevelNodes cs = cs.filter (fun c => !attachable cs c) := by
  unfold topLevelNodes
  apply filterMap_id_of
  intro c hc
  exact byIdGet_self hN (List.mem_of_mem_filter hc)

/-- With distinct ids the replies array of the node with id `i` is just the
filter of the attachable comments whose parent id is `i`, in input order. -/
theorem repliesOf_eq {cs : List CommentRec}
    (hN : (cs.map (fun c => c.id)).Nodup) (i : String) :
    repliesOf cs i = cs.filter (fun c => attachable cs c && c.parentId == some i) := by
  unfold repliesOf
  apply filterMap_id_of
  intro c hc
  exact byIdGet_self hN (List.mem_of_mem_filter hc)

/-- The attachment test is the negation of the claim-side root test. -/
theorem attachable_eq_not_claimRootB (cs : List CommentRec) (c : CommentRec) :
    attachable cs c = !claimRootB cs c := by
  cases hc : c.parentId with
  | none => simp [attachable, claimRootB, hc]
  | some p =>
    simp only [attachable, claimRootB, hc]
    have hany : byIdHas cs p = cs.any (fun d => d.id == p) := by
      cases h : byIdHas cs p with
      | true =>
        obtain ⟨d, hd, hid⟩ := (byIdHas_iff cs p).mp h
        exact (List.any_eq_true.mpr ⟨d, hd, by simpa using hid⟩).symm
      | false =>
        cases h2 : cs.any (fun d => d.id == p) with
        | false => rfl
        | true =>
          exfalso
          obtain ⟨d, hd, hid⟩ := List.any_eq_true.mp h2
          have ht : byIdHas cs p = true := (byIdHas_iff cs p).mpr ⟨d, hd, by simpa using hid⟩
          rw [h] at ht
          cases ht
    rw [hany, Bool.not_or, Bool.not_not]
    rfl

/-- The attachment test succeeds exactly when the comment has a parent
node. -/
theorem attachable_iff_parentNode (cs : List CommentRec) (c : CommentRec) :
    attachable cs c = true ↔ parentNode cs c ≠ none := by
  cases hc : c.parentId with
  | none => simp [attachable, parentNode, hc]
  | some p =>
    simp only [attachable, parentNode, hc]
    by_cases hp : p == ""
    · have hp2 : p = "" := by simpa using hp
      subst hp2
      simp
    · rw [if_neg (by simpa using hp)]
      constructor
      · intro h
        rw [Bool.and_eq_true] at h
        intro hn
        unfold byIdHas at h
        rw [hn] at h
        simp at h
      · intro h
        rw [Bool.and_eq_true]
        refine ⟨by simpa using hp, ?_⟩
        unfold byIdHas
        cases hby : byIdGet cs p with
        | none => exact absurd hby h
        | some v => rfl

/-- A parent node is a member of the comment list. -/
theorem parentNode_mem {cs : List CommentRec} {c p : CommentRec}
    (h : parentNode cs c = some p) : p ∈ cs := by
  cases hc : c.parentId with
  | none => simp [parentNode, hc] at h
  | some q =>
    simp only [parentNode, hc] at h
    by_cases hq : q == ""
    · rw [if_pos hq] at h; cases h
    · rw [if_neg hq] at h
      exact (byIdGet_eq_some h).1

/-- A chain starts at its comment. -/
theorem isChain_head {cs : List CommentRec} {c : CommentRec} {l : List CommentRec}
    (h : IsChain cs c l) : ∃ l', l = c :: l' := by
  cases h with
  | root c h => exact ⟨[], rfl⟩
  | step c p l h hp => exact ⟨l, rfl⟩

/-- The head of a chain is a member of it. -/
theorem isChain_mem_head {cs : List CommentRec} {c : CommentRec} {l : List CommentRec}
    (h : IsChain cs c l) : c ∈ l := by
  obtain ⟨l', rfl⟩ := isChain_head h
  exact List.mem_cons_self c l'

/-- Every element of a chain is the head or a member of the comment list. -/
theorem isChain_subset {cs : List CommentRec} {c : CommentRec} {l : List CommentRec}
    (h : IsChain cs c l) : ∀ x ∈ l, x = c ∨ x ∈ cs := by
  induction h with
  | root c h =>
    intro x hx
    rw [List.mem_singleton] at hx
    exact Or.inl hx
  | step c p l h hp ih =>
    intro x hx
    rcases List.mem_cons.mp hx with rfl | hx
    · exact Or.inl rfl
    · rcases ih x hx with rfl | hmem
      · exact Or.inr (parentNode_mem h)
      · exact Or.inr hmem

/-- Chains are unique: the parent function is deterministic. -/
theorem isChain_unique {cs : List CommentRec} {c : CommentRec} {l₁ l₂ : List CommentRec}
    (h₁ : IsChain cs c l₁) (h₂ : IsChain cs c l₂) : l₁ = l₂ := by
  induction h₁ generalizing l₂ with
  | root c h =>
    cases h₂ with
    | root _ _ => rfl
    | step _ p _ h' hp => rw [h] at h'; cases h'
  | step c p l h hp ih =>
    cases h₂ with
    | root _ h' => rw [h] at h'; cases h'
    | step _ p' l' h' hp' =>
      rw [h] at h'
      injection h' with h''
      subst h''
      rw [ih hp']

/-- Every member of a chain heads a suffix of the chain that is itself a
chain. -/
theorem isChain_suffix_of_mem {cs : List CommentRec} {c : CommentRec}
    {l : List CommentRec} (h : IsChain cs c l) :
    ∀ x ∈ l, ∃ m, List.IsSuffix m l ∧ IsChain cs x m := by
  induction h with
  | root c h =>
    intro x hx
    rw [List.mem_singleton] at hx
    subst hx
    exact ⟨[x], List.suffix_refl _, IsChain.root x h⟩
  | step c p l h hp ih =>
    intro x hx
    rcases List.mem_cons.mp hx with rfl | hx
    · exact ⟨x :: l, List.suffix_refl _, IsChain.step x p l h hp⟩
    · obtain ⟨m, hm, hchain⟩ := ih x hx
      exact ⟨m, hm.trans (List.suffix_cons c l), hchain⟩

/-- A child of the head of a chain does not occur in the chain (a revisit
would make the unique chain a proper suffix of itself). -/
theorem isChain_child_not_mem {cs : List CommentRec} {c k : CommentRec}
    {l : List CommentRec} (hl : IsChain cs c l)
    (hk : parentNode cs k = some c) : k ∉ l := by
  intro hkl
  obtain ⟨m, hm, hchain⟩ := isChain_suffix_of_mem hl k hkl
  cases hchain with
  | root _ h => rw [hk] at h; cases h
  | step _ c' m' h hp =>
    rw [hk] at h
    injection h with h'
    subst h'
    have hm' : m' = l := isChain_unique hp hl
    subst hm'
    have := hm.length_le
    simp at this

/-- The parent of any chain member stays in the chain. -/
theorem isChain_succ_mem {cs : List CommentRec} {c : CommentRec}
    {l : List CommentRec} (h : IsChain cs c l) :
    ∀ k p, k ∈ l → parentNode cs k = some p → p ∈ l := by
  induction h with
  | root c h =>
    intro k p hk hp
    rw [List.mem_singleton] at hk
    subst hk
    rw [h] at hp
    cases hp
  | step c q l h hq ih =>
    intro k p hk hp
    rcases List.mem_cons.mp hk with rfl | hk
    · rw [h] at hp
      injection hp with hp'
      subst hp'
      exact List.mem_cons_of_mem _ (isChain_mem_head hq)
    · exact List.mem_cons_of_mem _ (ih k p hk hp)

/-- Every chain owns exactly one parentless element (its far end). -/
theorem isChain_root_exists {cs : List CommentRec} {c : CommentRec}
    {l : List CommentRec} (h : IsChain cs c l) :
    ∃ r ∈ l, parentNode cs r = none ∧ ∀ y ∈ l, parentNode cs y = none → y = r := by
  induction h with
  | root c h =>
    refine ⟨c, List.mem_singleton_self c, h, ?_⟩
    intro y hy _
    rwa [List.mem_singleton] at hy
  | step c p l h hp ih =>
    obtain ⟨r, hr, hrn, huniq⟩ := ih
    refine ⟨r, List.mem_cons_of_mem c hr, hrn, ?_⟩
    intro y hy hyn
    rcases List.mem_cons.mp hy with rfl | hy
    · rw [h] at hyn; cases hyn
    · exact huniq y hy hyn

/-- A chain from a member of a duplicate-free-id list has length at most
the list length. -/
theorem isChain_length_le {cs : List CommentRec} {c : CommentRec}
    {l : List CommentRec} (h : IsChain cs c l) (hc : c ∈ cs) (hnd : l.Nodup) :
    l.length ≤ cs.length := by
  have hsub : l ⊆ cs := by
    intro x hx
    rcases isChain_subset h x hx with rfl | hm
    · exact hc
    · exact hm
  exact (hnd.subperm hsub).length_le

/-- Unfolding `chainN` at a parentless comment. -/
theorem chainN_parent_none {cs : List CommentRec} {c : CommentRec} (fuel : Nat)
    (h : parentNode cs c = none) : chainN cs fuel c = some [c] := by
  cases fuel with
  | zero =>
    unfold chainN
    rw [h]
  | succ fuel =>
    unfold chainN
    rw [h]

/-- Unfolding `chainN` with zero fuel at an attached comment. -/
theorem chainN_zero_some_parent {cs : List CommentRec} {c p : CommentRec}
    (h : parentNode cs c = some p) : chainN cs 0 c = none := by
  unfold chainN
  rw [h]

/-- Unfolding `chainN` with positive fuel at an attached comment. -/
theorem chainN_succ_some_parent {cs : List CommentRec} {c p : CommentRec}
    {fuel : Nat} (h : parentNode cs c = some p) :
    chainN cs (fuel + 1) c = (chainN cs fuel p).map (fun l => c :: l) := by
  conv_lhs => rw [chainN]
  rw [h]

/-- A successful bounded chain computation is a chain. -/
theorem chainN_isChain {cs : List CommentRec} :
    ∀ (fuel : Nat) (c : CommentRec) (l : List CommentRec),
      chainN cs fuel c = some l → IsChain cs c l := by
  intro fuel
  induction fuel with
  | zero =>
    intro c l h
    cases hp : parentNode cs c with
    | none =>
      rw [chainN_parent_none 0 hp] at h
      injection h with h'
      subst h'
      exact IsChain.root c hp
    | some p =>
      rw [chainN_zero_some_parent hp] at h
      exact Option.noConfusion h
  | succ fuel ih =>
    intro c l h
    cases hp : parentNode cs c with
    | none =>
      rw [chainN_parent_none (fuel + 1) hp] at h
      injection h with h'
      subst h'
      exact IsChain.root c hp
    | some p =>
      rw [chainN_succ_some_parent hp] at h
      cases hch : chainN cs fuel p with
      | none => rw [hch] at h; exact Option.noConfusion h
      | some l' =>
        rw [hch] at h
        simp only [Option.map_some', Option.some.injEq] at h
        subst h
        exact IsChain.step c p l' hp (ih p l' hch)

/-- A chain is computed by `chainN` whenever the fuel covers its length. -/
theorem isChain_chainN {cs : List CommentRec} {c : CommentRec}
    {l : List CommentRec} (h : IsChain cs c l) :
    ∀ fuel, l.length ≤ fuel + 1 → chainN cs fuel c = some l := by
  induction h with
  | root c h =>
    intro fuel _
    exact chainN_parent_none fuel h
  | step c p l h hp ih =>
    intro fuel hlen
    cases fuel with
    | zero =>
      exfalso
      have h1 : 1 ≤ l.length := by
        obtain ⟨l', rfl⟩ := isChain_head hp
        simp
      simp only [List.length_cons] at hlen
      omega
    | succ fuel =>
      rw [chainN_succ_some_parent h]
      rw [ih fuel (by simpa using Nat.le_of_succ_le_succ hlen)]
      rfl

/-- `buildNode` with no fuel. -/
theorem buildNode_zero (cs : List CommentRec) (c : CommentRec) :
    buildNode cs 0 c = none := rfl

/-- `buildNode` with positive fuel. -/
theorem buildNode_succ (cs : List CommentRec) (fuel : Nat) (c : CommentRec) :
    buildNode cs (fuel + 1) c
      = (kidsForest (buildNode cs fuel) (sortByCreated (repliesOf cs c.id))).map
          (CTree.node c) := rfl

/-- `kidsForest` succeeds when every child build succeeds. -/
theorem kidsForest_isSome {f : CommentRec → Option CTree} :
    ∀ ks : List CommentRec, (∀ k ∈ ks, (f k).isSome) → (kidsForest f ks).isSome := by
  intro ks
  induction ks with
  | nil => intro _; rfl
  | cons k ks ih =>
    intro h
    obtain ⟨t, ht⟩ := Option.isSome_iff_exists.mp (h k (List.mem_cons_self k ks))
    have hks := ih (fun b hb => h b (List.mem_cons_of_mem k hb))
    obtain ⟨fo, hfo⟩ := Option.isSome_iff_exists.mp hks
    unfold kidsForest
    rw [ht, hfo]
    rfl

/-- A successful `kidsForest` pairs children with their built trees. -/
theorem kidsForest_some_forall {f : CommentRec → Option CTree} :
    ∀ (ks : List CommentRec) (fo : CForest), kidsForest f ks = some fo →
      List.Forall₂ (fun k t => f k = some t) ks (forestList fo) := by
  intro ks
  induction ks with
  | nil =>
    intro fo h
    unfold kidsForest at h
    injection h with h'
    subst h'
    exact List.Forall₂.nil
  | cons k ks ih =>
    intro fo h
    unfold kidsForest at h
    cases ht : f k with
    | none => rw [ht] at h; exact Option.noConfusion h
    | some t =>
      rw [ht] at h
      cases hks : kidsForest f ks with
      | none => rw [hks] at h; exact Option.noConfusion h
      | some fo' =>
        rw [hks] at h
        injection h with h'
        subst h'
        exact List.Forall₂.cons ht (ih fo' hks)

/-- `buildRoots` succeeds when every root build succeeds. -/
theorem buildRoots_isSome {f : CommentRec → Option CTree} :
    ∀ ks : List CommentRec, (∀ k ∈ ks, (f k).isSome) → (buildRoots f ks).isSome := by
  intro ks
  induction ks with
  | nil => intro _; rfl
  | cons k ks ih =>
    intro h
    obtain ⟨t, ht⟩ := Option.isSome_iff_exists.mp (h k (List.mem_cons_self k ks))
    obtain ⟨ts, hts⟩ := Option.isSome_iff_exists.mp
      (ih (fun b hb => h b (List.mem_cons_of_mem k hb)))
    unfold buildRoots
    rw [ht, hts]
    rfl

/-- A successful `buildRoots` pairs roots with their built trees. -/
theorem buildRoots_some_forall {f : CommentRec → Option CTree} :
    ∀ (ks : List CommentRec) (ts : List CTree), buildRoots f ks = some ts →
      List.Forall₂ (fun k t => f k = some t) ks ts := by
  intro ks
  induction ks with
  | nil =>
    intro ts h
    unfold buildRoots at h
    injection h with h'
    subst h'
    exact List.Forall₂.nil
  | cons k ks ih =>
    intro ts h
    unfold buildRoots at h
    cases ht : f k with
    | none => rw [ht] at h; exact Option.noConfusion h
    | some t =>
      rw [ht] at h
      cases hks : buildRoots f ks with
      | none => rw [hks] at h; exact Option.noConfusion h
      | some ts' =>
        rw [hks] at h
        injection h with h'
        subst h'
        exact List.Forall₂.cons ht (ih ts' hks)

/-- A built tree is rooted at the comment it was built for. -/
theorem buildNode_rootRec {cs : List CommentRec} {fuel : Nat} {c : CommentRec}
    {t : CTree} (h : buildNode cs fuel c = some t) : rootRec t = c := by
  cases fuel with
  | zero => exact Option.noConfusion h
  | succ fuel =>
    rw [buildNode_succ] at h
    cases hkf : kidsForest (buildNode cs fuel) (sortByCreated (repliesOf cs c.id)) with
    | none => rw [hkf] at h; exact Option.noConfusion h
    | some fo =>
      rw [hkf] at h
      simp only [Option.map_some', Option.some.injEq] at h
      subst h
      rfl

/-- Membership in a child list, transported through the sort. -/
theorem mem_sortByCreated {l : List CommentRec} {k : CommentRec} :
    k ∈ sortByCreated l ↔ k ∈ l := by
  unfold sortByCreated
  exact List.mem_insertionSort (fun a b : CommentRec => a.createdAt ≤ b.createdAt)

/-- A member of the replies of node `c` (with distinct ids) is an
attachable comment whose parent node is `c`. -/
theorem mem_repliesOf {cs : List CommentRec}
    (hN : (cs.map (fun c => c.id)).Nodup) {c k : CommentRec} (hc : c ∈ cs)
    (hk : k ∈ repliesOf cs c.id) : k ∈ cs ∧ parentNode cs k = some c := by
  rw [repliesOf_eq hN] at hk
  rw [List.mem_filter] at hk
  obtain ⟨hkcs, hcond⟩ := hk
  rw [Bool.and_eq_true] at hcond
  obtain ⟨hatt, hpid⟩ := hcond
  have hkp : k.parentId = some c.id := by simpa using hpid
  have hne : (c.id == "") = false := by
    simp only [attachable, hkp] at hatt
    rw [Bool.and_eq_true] at hatt
    simpa using hatt.1
  refine ⟨hkcs, ?_⟩
  simp only [parentNode, hkp]
  rw [if_neg (by simp [hne])]
  exact byIdGet_self hN hc

/-- Core termination argument: with pairwise-distinct ids, building any
comment whose parent chain has been accumulated (without revisits)
succeeds, provided the fuel plus the chain length exceeds the number of
comments. -/
theorem buildNode_total {cs : List CommentRec}
    (hN : (cs.map (fun c => c.id)).Nodup) :
    ∀ (fuel : Nat) (c : CommentRec) (l : List CommentRec),
      c ∈ cs → IsChain cs c l → l.Nodup → cs.length + 1 ≤ fuel + l.length →
      (buildNode cs fuel c).isSome := by
  intro fuel
  induction fuel with
  | zero =>
    intro c l hc hch hnd hlen
    exfalso
    have := isChain_length_le hch hc hnd
    omega
  | succ fuel ih =>
    intro c l hc hch hnd hlen
    rw [buildNode_succ]
    have hkf : (kidsForest (buildNode cs fuel)
        (sortByCreated (repliesOf cs c.id))).isSome := by
      apply kidsForest_isSome
      intro k hk
      rw [mem_sortByCreated] at hk
      obtain ⟨hkcs, hpn⟩ := mem_repliesOf hN hc hk
      have hch' : IsChain cs k (k :: l) := IsChain.step k c l hpn hch
      have hknotl : k ∉ l := isChain_child_not_mem hch hpn
      apply ih k (k :: l) hkcs hch' (List.nodup_cons.mpr ⟨hknotl, hnd⟩)
      simp only [List.length_cons]
      omega
    obtain ⟨fo, hfo⟩ := Option.isSome_iff_exists.mp hkf
    rw [hfo]
    rfl

/-- With pairwise-distinct ids the whole build succeeds at fuel
`cs.length`. -/
theorem buildTree_total {cs : List CommentRec}
    (hN : (cs.map (fun c => c.id)).Nodup) :
    (buildTree cs cs.length).isSome := by
  unfold buildTree
  apply buildRoots_isSome
  intro r hr
  rw [mem_sortByCreated] at hr
  rw [topLevelNodes_eq hN] at hr
  rw [List.mem_filter] at hr
  obtain ⟨hrcs, hratt⟩ := hr
  have hpn : parentNode cs r = none := by
    cases hpn : parentNode cs r with
    | none => rfl
    | some p =>
      exfalso
      have : attachable cs r = true :=
        (attachable_iff_parentNode cs r).mpr (by simp [hpn])
      rw [this] at hratt
      simp at hratt
  apply buildNode_total hN cs.length r [r] hrcs (IsChain.root r hpn)
    (List.nodup_singleton r)
  simp

/-! ### Claim C4: termination -/

/-- On `csCyc` the two cycle nodes can never be built, whatever the
recursion depth: each needs the other built one level deeper. -/
theorem buildNode_csCyc_none :
    ∀ fuel, buildNode csCyc fuel cycB = none ∧ buildNode csCyc fuel cycC = none := by
  intro fuel
  induction fuel with
  | zero => exact ⟨rfl, rfl⟩
  | succ fuel ih =>
    constructor
    · rw [buildNode_succ]
      have h1 : sortByCreated (repliesOf csCyc cycB.id) = [cycC] := rfl
      rw [h1]
      unfold kidsForest
      rw [ih.2]
      rfl
    · rw [buildNode_succ]
      have h1 : sortByCreated (repliesOf csCyc cycC.id) = [cycB] := rfl
      rw [h1]
      unfold kidsForest
      rw [ih.1]
      rfl

/-- Claim C4 counterexample: the comment tree builder does not terminate on
every input. On `csCyc` — whose parentId references form the cycle
1 → 2 → 1, made reachable from the top level by a duplicated id — no
recursion depth ever completes the build: the recursive sorting of replies
follows the reference cycle forever (a stack overflow in the JavaScript
source). -/
theorem commentTree_cycle_diverges : ¬ BuildTerminates csCyc := by
  rintro ⟨fuel, h⟩
  have htop : sortByCreated (topLevelNodes csCyc) = [cycB] := rfl
  unfold buildTree at h
  rw [htop] at h
  unfold buildRoots at h
  rw [(buildNode_csCyc_none fuel).1] at h
  simp at h

/-- Claim C4 (amended): for every input whose comment ids are pairwise
distinct, the tree builder terminates — including inputs whose parentId
references form a cycle (such cycles are unreachable from the top level
and their members are dropped). With duplicate ids a reference cycle can
become reachable and the recursion diverges. -/
theorem commentTree_terminates_of_nodup_ids (cs : List CommentRec)
    (hN : (cs.map (fun c => c.id)).Nodup) : BuildTerminates cs :=
  ⟨cs.length, buildTree_total hN⟩

/-- Claim C4 witness: the two-comment parentId cycle with distinct ids —
the build terminates on it. -/
theorem commentTree_terminates_witness :
    ((csCycNodup.map (fun c => c.id)).Nodup) ∧ BuildTerminates csCycNodup :=
  ⟨by decide, commentTree_terminates_of_nodup_ids csCycNodup (by decide)⟩

/-! ### Claim C3: tree shape, ordering, stability -/

/-- Stability of the modelled sort, as a per-timestamp filter equation:
comments with any fixed timestamp appear in the sorted output exactly in
their original relative order. -/
theorem sortByCreated_filter_key (l : List CommentRec) (ts : Nat) :
    (sortByCreated l).filter (fun c => c.createdAt == ts)
      = l.filter (fun c => c.createdAt == ts) := by
  have hp : (l.filter (fun c => c.createdAt == ts)).Pairwise
      (fun a b : CommentRec => a.createdAt ≤ b.createdAt) := by
    apply List.pairwise_of_forall_mem_list
    intro a ha b hb
    have ha2 : a.createdAt = ts := by simpa using (List.mem_filter.mp ha).2
    have hb2 : b.createdAt = ts := by simpa using (List.mem_filter.mp hb).2
    rw [ha2, hb2]
  have hsub : List.Sublist (l.filter (fun c => c.createdAt == ts)) (sortByCreated l) := by
    unfold sortByCreated
    exact List.sublist_insertionSort hp (List.filter_sublist l)
  have hsub2 := hsub.filter (fun c => c.createdAt == ts)
  rw [List.filter_filter] at hsub2
  simp only [Bool.and_self] at hsub2
  have hperm : ((sortByCreated l).filter (fun c => c.createdAt == ts)).Perm
      (l.filter (fun c => c.createdAt == ts)) := by
    unfold sortByCreated
    exact (List.perm_insertionSort _ l).filter _
  exact (hsub2.eq_of_length hperm.length_eq.symm).symm

/-- The modelled sort produces a `createdAt`-ascending list. -/
theorem sortByCreated_sorted (l : List CommentRec) :
    List.Sorted (fun a b : CommentRec => a.createdAt ≤ b.createdAt) (sortByCreated l) :=
  List.sorted_insertionSort _ l

/-- The root records of a successfully built child forest are exactly the
children it was built from. -/
theorem forestList_roots_of_builds {cs : List CommentRec} {fuel : Nat} :
    ∀ (ks : List CommentRec) (fo : CForest),
      kidsForest (buildNode cs fuel) ks = some fo →
      (forestList fo).map rootRec = ks := by
  intro ks
  induction ks with
  | nil =>
    intro fo h
    unfold kidsForest at h
    injection h with h'
    subst h'
    rfl
  | cons k ks ih =>
    intro fo h
    unfold kidsForest at h
    cases ht : buildNode cs fuel k with
    | none => rw [ht] at h; exact Option.noConfusion h
    | some t =>
      rw [ht] at h
      cases hks : kidsForest (buildNode cs fuel) ks with
      | none => rw [hks] at h; exact Option.noConfusion h
      | some fo' =>
        rw [hks] at h
        injection h with h'
        subst h'
        show rootRec t :: (forestList fo').map rootRec = k :: ks
        rw [buildNode_rootRec ht, ih fo' hks]

/-- The root records of a successfully built top level are exactly the
roots it was built from. -/
theorem roots_of_buildRoots {cs : List CommentRec} {fuel : Nat} :
    ∀ (ks : List CommentRec) (forest : List CTree),
      buildRoots (buildNode cs fuel) ks = some forest →
      forest.map rootRec = ks := by
  intro ks
  induction ks with
  | nil =>
    intro forest h
    unfold buildRoots at h
    injection h with h'
    subst h'
    rfl
  | cons k ks ih =>
    intro forest h
    unfold buildRoots at h
    cases ht : buildNode cs fuel k with
    | none => rw [ht] at h; exact Option.noConfusion h
    | some t =>
      rw [ht] at h
      cases hks : buildRoots (buildNode cs fuel) ks with
      | none => rw [hks] at h; exact Option.noConfusion h
      | some ts' =>
        rw [hks] at h
        injection h with h'
        subst h'
        show rootRec t :: ts'.map rootRec = k :: ks
        rw [buildNode_rootRec ht, ih ts' hks]

/-- `ForestOK` holds for a successfully built child forest whenever each
build result satisfies `TreeOK`. -/
theorem forestOK_of_builds {cs : List CommentRec} {fuel : Nat} :
    ∀ (ks : List CommentRec) (fo : CForest),
      kidsForest (buildNode cs fuel) ks = some fo →
      (∀ k ∈ ks, k ∈ cs) →
      (∀ k t, k ∈ cs → buildNode cs fuel k = some t → TreeOK cs t) →
      ForestOK cs fo := by
  intro ks
  induction ks with
  | nil =>
    intro fo h _ _
    unfold kidsForest at h
    injection h with h'
    subst h'
    exact trivial
  | cons k ks ih =>
    intro fo h hmem hTOK
    unfold kidsForest at h
    cases ht : buildNode cs fuel k with
    | none => rw [ht] at h; exact Option.noConfusion h
    | some t =>
      rw [ht] at h
      cases hks : kidsForest (buildNode cs fuel) ks with
      | none => rw [hks] at h; exact Option.noConfusion h
      | some fo' =>
        rw [hks] at h
        injection h with h'
        subst h'
        exact ⟨hTOK k t (hmem k (List.mem_cons_self k ks)) ht,
          ih fo' hks (fun b hb => hmem b (List.mem_cons_of_mem k hb)) hTOK⟩

/-- The two child predicates — the code side (attachment test) and the
claim side (non-root) — filter the same comments. -/
theorem childFilter_eq (cs : List CommentRec) (i : String) :
    cs.filter (fun d => attachable cs d && d.parentId == some i)
      = cs.filter (fun d => !claimRootB cs d && d.parentId == some i) := by
  apply List.filter_congr
  intro d _
  rw [attachable_eq_not_claimRootB]

/-- Every successfully built node satisfies the claim-side description
`TreeOK`: replies are the non-root comments referencing the node's id,
stably sorted by `createdAt`, recursively. -/
theorem buildNode_treeOK {cs : List CommentRec}
    (hN : (cs.map (fun c => c.id)).Nodup) :
    ∀ (fuel : Nat) (c : CommentRec) (t : CTree),
      c ∈ cs → buildNode cs fuel c = some t → TreeOK cs t := by
  intro fuel
  induction fuel with
  | zero =>
    intro c t _ h
    exact Option.noConfusion h
  | succ fuel ih =>
    intro c t hc h
    rw [buildNode_succ] at h
    cases hkf : kidsForest (buildNode cs fuel) (sortByCreated (repliesOf cs c.id)) with
    | none => rw [hkf] at h; exact Option.noConfusion h
    | some fo =>
      rw [hkf] at h
      simp only [Option.map_some', Option.some.injEq] at h
      subst h
      have hroots : (forestList fo).map rootRec = sortByCreated (repliesOf cs c.id) :=
        forestList_roots_of_builds _ fo hkf
      refine ⟨?_, ?_, ?_⟩
      · rw [hroots]
        exact sortByCreated_sorted _
      · intro ts
        rw [hroots, sortByCreated_filter_key, repliesOf_eq hN, childFilter_eq]
      · apply forestOK_of_builds _ fo hkf
        · intro k hk
          rw [mem_sortByCreated] at hk
          exact (mem_repliesOf hN hc hk).1
        · intro k t hk ht
          exact ih k t hk ht

/-- Every element on the right of a `Forall₂` is related to some element
on the left. -/
theorem forall₂_exists_left {α β : Type} {R : α → β → Prop} :
    ∀ {l₁ : List α} {l₂ : List β}, List.Forall₂ R l₁ l₂ → ∀ b ∈ l₂, ∃ a ∈ l₁, R a b := by
  intro l₁ l₂ h
  induction h with
  | nil => intro b hb; cases hb
  | cons hR hrest ih =>
    intro b hb
    rcases List.mem_cons.mp hb with rfl | hb
    · exact ⟨_, List.mem_cons_self _ _, hR⟩
    · obtain ⟨a, ha, har⟩ := ih b hb
      exact ⟨a, List.mem_cons_of_mem _ ha, har⟩

/-- Claim C3 counterexample: the builder does not follow the claimed root
rule nor the claimed placement rule on every input. On `csEmptyId` the
comment `x` has `parentId` `""`, which matches an existing comment id — the
claim then requires `x` to be attached under that parent — yet the built
tree keeps `x` at top level (the claim-side root filter contains only the
comment with id `""`). On the acyclic duplicate-id list `csDup` the comment
`⟨1, t0⟩` is placed nowhere: the built tree consists of the `⟨1, t1⟩` node
twice. -/
theorem commentTree_claim_counterexample :
    ((buildTree csEmptyId csEmptyId.length).map (fun f => f.map rootRec)
        = some [⟨"", none, 0⟩, ⟨"x", some "", 1⟩])
    ∧ csEmptyId.filter (fun d =>
          d.parentId == none || !csEmptyId.any (fun e => some e.id == d.parentId))
        = [⟨"", none, 0⟩]
    ∧ (buildTree csDup csDup.length).map flattenAll
        = some [⟨"1", none, 1⟩, ⟨"1", none, 1⟩] := by
  refine ⟨rfl, rfl, rfl⟩

/-- Claim C3 (amended): for every flat comment list with pairwise-distinct
ids, the tree builder places each comment whose `parentId` is null, empty,
or unmatched by any comment id as a top-level root, attaches every other
comment under its parent, and sorts the root list and every replies array
by `createdAt` ascending, stably for equal timestamps (per-timestamp
filters preserve input order); on the spec's concrete four-comment example
the result is exactly roots `[4 (t1), 1 (t10)]` with `1.replies =
[3 (t5), 2 (t20)]`. -/
theorem commentTree_spec :
    (∀ cs : List CommentRec, (cs.map (fun c => c.id)).Nodup →
      ∃ forest, buildTree cs cs.length = some forest
        ∧ List.Sorted (fun a b : CommentRec => a.createdAt ≤ b.createdAt)
            (forest.map rootRec)
        ∧ (∀ ts : Nat, (forest.map rootRec).filter (fun d => d.createdAt == ts)
            = (cs.filter (fun d => claimRootB cs d)).filter (fun d => d.createdAt == ts))
        ∧ ∀ t ∈ forest, TreeOK cs t)
    ∧ buildTree exComments exComments.length = some exTree := by
  constructor
  · intro cs hN
    obtain ⟨forest, hforest⟩ := Option.isSome_iff_exists.mp (buildTree_total hN)
    refine ⟨forest, hforest, ?_, ?_, ?_⟩
    · have hroots : forest.map rootRec = sortByCreated (topLevelNodes cs) :=
        roots_of_buildRoots _ forest hforest
      rw [hroots]
      exact sortByCreated_sorted _
    · intro ts
      have hroots : forest.map rootRec = sortByCreated (topLevelNodes cs) :=
        roots_of_buildRoots _ forest hforest
      rw [hroots, sortByCreated_filter_key, topLevelNodes_eq hN]
      congr 1
      apply List.filter_congr
      intro d _
      rw [attachable_eq_not_claimRootB, Bool.not_not]
    · intro t ht
      have hfa := buildRoots_some_forall _ forest hforest
      obtain ⟨r, hr, hrt⟩ := forall₂_exists_left hfa t ht
      have hrcs : r ∈ cs := by
        rw [mem_sortByCreated, topLevelNodes_eq hN] at hr
        exact List.mem_of_mem_filter hr
      exact buildNode_treeOK hN cs.length r t hrcs hrt
  · rfl

/-- Claim C3 witness: the spec's four-comment example has distinct ids, and
the characterization applies to it. -/
theorem commentTree_spec_witness :
    ((exComments.map (fun c => c.id)).Nodup)
    ∧ (∃ forest, buildTree exComments exComments.length = some forest
        ∧ List.Sorted (fun a b : CommentRec => a.createdAt ≤ b.createdAt)
            (forest.map rootRec)
        ∧ (∀ ts : Nat, (forest.map rootRec).filter (fun d => d.createdAt == ts)
            = (exComments.filter (fun d => claimRootB exComments d)).filter
                (fun d => d.createdAt == ts))
        ∧ ∀ t ∈ forest, TreeOK exComments t) :=
  ⟨by decide, commentTree_spec.1 exComments (by decide)⟩

/-! ### Claim C10: no comment duplicated or lost -/

/-- Two suffixes of one list with equal lengths coincide. -/
theorem suffix_eq_of_length {α : Type} {s₁ s₂ l : List α}
    (h₁ : List.IsSuffix s₁ l) (h₂ : List.IsSuffix s₂ l)
    (h : s₁.length = s₂.length) : s₁ = s₂ := by
  obtain ⟨t₁, ht₁⟩ := h₁
  obtain ⟨t₂, ht₂⟩ := h₂
  have hd₁ : l.drop t₁.length = s₁ := by rw [← ht₁, List.drop_left]
  have hd₂ : l.drop t₂.length = s₂ := by rw [← ht₂, List.drop_left]
  have hlen : t₁.length = t₂.length := by
    have e₁ : t₁.length + s₁.length = l.length := by
      rw [← ht₁, List.length_append]
    have e₂ : t₂.length + s₂.length = l.length := by
      rw [← ht₂, List.length_append]
    omega
  rw [← hd₁, ← hd₂, hlen]

/-- A non-head member of a chain has a predecessor in the chain: some chain
element's parent is exactly that member. -/
theorem isChain_pred_exists {cs : List CommentRec} {d : CommentRec}
    {l : List CommentRec} (h : IsChain cs d l) :
    ∀ c ∈ l, c ≠ d → ∃ k ∈ l, parentNode cs k = some c := by
  induction h with
  | root d h =>
    intro c hc hne
    rw [List.mem_singleton] at hc
    exact absurd hc hne
  | step d p l h hp ih =>
    intro c hc hne
    rcases List.mem_cons.mp hc with rfl | hc
    · exact absurd rfl hne
    · by_cases hcp : c = p
      · subst hcp
        exact ⟨d, List.mem_cons_self d l, h⟩
      · obtain ⟨k, hk, hkp⟩ := ih c hc (fun he => hcp he)
        exact ⟨k, List.mem_cons_of_mem d hk, hkp⟩

/-- Membership in a node's replies, both directions (distinct ids). -/
theorem mem_repliesOf_iff {cs : List CommentRec}
    (hN : (cs.map (fun c => c.id)).Nodup) {c k : CommentRec} (hc : c ∈ cs) :
    k ∈ repliesOf cs c.id ↔ k ∈ cs ∧ parentNode cs k = some c := by
  constructor
  · exact mem_repliesOf hN hc
  · rintro ⟨hk, hpn⟩
    rw [repliesOf_eq hN, List.mem_filter]
    refine ⟨hk, ?_⟩
    cases hkp : k.parentId with
    | none => simp [parentNode, hkp] at hpn
    | some q =>
      simp only [parentNode, hkp] at hpn
      by_cases hq : q == ""
      · rw [if_pos hq] at hpn
        cases hpn
      · rw [if_neg hq] at hpn
        have hidq : c.id = q := (byIdGet_eq_some hpn).2
        rw [Bool.and_eq_true]
        constructor
        · simp only [attachable, hkp]
          rw [Bool.and_eq_true]
          refine ⟨by simpa using hq, ?_⟩
          unfold byIdHas
          rw [hpn]
          rfl
        · simp [hkp, hidq]

/-- `descends` through a computed chain. -/
theorem descends_eq {cs : List CommentRec} {d : CommentRec} {l : List CommentRec}
    (h : chainN cs cs.length d = some l) (x : CommentRec) :
    descends cs d x = decide (x ∈ l) := by
  unfold descends
  rw [h]

/-- Summing an indicator over a duplicate-free list with exactly one hit. -/
theorem sum_ite_one {α : Type} [DecidableEq α] {L : List α} {b : α → Bool} {k₀ : α}
    (hnd : L.Nodup) (hk₀ : k₀ ∈ L) (hb : b k₀ = true)
    (huniq : ∀ y ∈ L, b y = true → y = k₀) :
    (L.map (fun k => if b k = true then 1 else 0)).sum = 1 := by
  induction L with
  | nil => cases hk₀
  | cons a L ih =>
    rw [List.nodup_cons] at hnd
    rcases List.mem_cons.mp hk₀ with rfl | hk₀
    · rw [List.map_cons, List.sum_cons, if_pos hb]
      have hz : ∀ y ∈ L, b y = false := by
        intro y hy
        cases hby : b y with
        | false => rfl
        | true =>
          exact absurd (huniq y (List.mem_cons_of_mem k₀ hy) hby ▸ hy) hnd.1
      have : (L.map (fun k => if b k = true then 1 else 0)).sum = 0 := by
        rw [List.sum_eq_zero]
        intro x hx
        obtain ⟨y, hy, rfl⟩ := List.mem_map.mp hx
        rw [hz y hy]
        rfl
      omega
    · have ha : b a = false := by
        cases hba : b a with
        | false => rfl
        | true =>
          exact absurd (huniq a (List.mem_cons_self a L) hba ▸ hk₀) hnd.1
      rw [List.map_cons, List.sum_cons, if_neg (by simp [ha])]
      rw [ih hnd.2 hk₀ (fun y hy hby => huniq y (List.mem_cons_of_mem a hy) hby)]

/-- Summing an indicator with no hits. -/
theorem sum_ite_zero {α : Type} {L : List α} {b : α → Bool}
    (hz : ∀ y ∈ L, b y = false) :
    (L.map (fun k => if b k = true then 1 else 0)).sum = 0 := by
  rw [List.sum_eq_zero]
  intro x hx
  obtain ⟨y, hy, rfl⟩ := List.mem_map.mp hx
  rw [hz y hy]
  rfl

/-- The decomposition at the heart of the no-loss argument: a comment `d`
descends from `c` exactly once, counted as: once for `d = c`, plus once for
each reply of `c` that `d` descends from. -/
theorem descends_decomp {cs : List CommentRec}
    (hN : (cs.map (fun c => c.id)).Nodup) (hNC : NoCycle cs)
    {d c : CommentRec} (hd : d ∈ cs) (hc : c ∈ cs) :
    (if descends cs d c = true then 1 else 0)
      = (if d = c then 1 else 0)
        + ((repliesOf cs c.id).map
            (fun k => if descends cs d k = true then 1 else 0)).sum := by
  obtain ⟨ld, hld⟩ := Option.isSome_iff_exists.mp (hNC d hd)
  have hchd : IsChain cs d ld := chainN_isChain cs.length d ld hld
  have hrnd : (repliesOf cs c.id).Nodup := by
    rw [repliesOf_eq hN]
    exact (hN.of_map (fun c => c.id)).filter _
  by_cases hdc : d = c
  · subst hdc
    have hmem : d ∈ ld := isChain_mem_head hchd
    rw [descends_eq hld d, if_pos (by simpa using hmem), if_pos rfl]
    have hz : ((repliesOf cs d.id).map
        (fun k => if descends cs d k = true then 1 else 0)).sum = 0 := by
      apply sum_ite_zero
      intro k hk
      obtain ⟨-, hpn⟩ := mem_repliesOf hN hc hk
      have hnot : k ∉ ld := isChain_child_not_mem hchd hpn
      rw [descends_eq hld k]
      simpa using hnot
    omega
  · by_cases hcld : c ∈ ld
    · obtain ⟨k₀, hk₀ld, hk₀p⟩ := isChain_pred_exists hchd c hcld (fun he => hdc he.symm)
      have hk₀cs : k₀ ∈ cs := by
        rcases isChain_subset hchd k₀ hk₀ld with rfl | hm
        · exact hd
        · exact hm
      have hk₀rep : k₀ ∈ repliesOf cs c.id :=
        (mem_repliesOf_iff hN hc).mpr ⟨hk₀cs, hk₀p⟩
      obtain ⟨lc, hlc⟩ := Option.isSome_iff_exists.mp (hNC c hc)
      have hchc : IsChain cs c lc := chainN_isChain cs.length c lc hlc
      have hkey : ∀ y ∈ repliesOf cs c.id, descends cs d y = true → y = k₀ := by
        intro y hy hydesc
        obtain ⟨hycs, hypn⟩ := mem_repliesOf hN hc hy
        have hyld : y ∈ ld := by
          rw [descends_eq hld y] at hydesc
          simpa using hydesc
        obtain ⟨my, hmy, hchy⟩ := isChain_suffix_of_mem hchd y hyld
        obtain ⟨mk, hmk, hchk⟩ := isChain_suffix_of_mem hchd k₀ hk₀ld
        have hyc : my = y :: lc := isChain_unique hchy (IsChain.step y c lc hypn hchc)
        have hkc : mk = k₀ :: lc := isChain_unique hchk (IsChain.step k₀ c lc hk₀p hchc)
        have heq : my = mk := by
          apply suffix_eq_of_length hmy hmk
          rw [hyc, hkc]
          simp
        rw [hyc, hkc] at heq
        injection heq
      rw [descends_eq hld c, if_pos (by simpa using hcld), if_neg hdc]
      rw [sum_ite_one hrnd hk₀rep (by rw [descends_eq hld k₀]; simpa using hk₀ld) hkey]
    · rw [descends_eq hld c, if_neg (by simpa using hcld), if_neg hdc]
      have hz : ((repliesOf cs c.id).map
          (fun k => if descends cs d k = true then 1 else 0)).sum = 0 := by
        apply sum_ite_zero
        intro k hk
        obtain ⟨-, hpn⟩ := mem_repliesOf hN hc hk
        cases hdk : descends cs d k with
        | false => rfl
        | true =>
          exfalso
          rw [descends_eq hld k] at hdk
          have hkld : k ∈ ld := by simpa using hdk
          exact hcld (isChain_succ_mem hchd k c hkld hpn)
      omega

/-- Counting a record across a built child forest, child by child. -/
theorem count_flattenForest_of_builds {cs : List CommentRec} {fuel : Nat}
    (d : CommentRec) (g : CommentRec → Nat) :
    ∀ (ks : List CommentRec) (fo : CForest),
      kidsForest (buildNode cs fuel) ks = some fo →
      (∀ k ∈ ks, ∀ t, buildNode cs fuel k = some t → (flattenTree t).count d = g k) →
      (flattenForest fo).count d = (ks.map g).sum := by
  intro ks
  induction ks with
  | nil =>
    intro fo h _
    unfold kidsForest at h
    injection h with h'
    subst h'
    rfl
  | cons k ks ih =>
    intro fo h hg
    unfold kidsForest at h
    cases ht : buildNode cs fuel k with
    | none => rw [ht] at h; exact Option.noConfusion h
    | some t =>
      rw [ht] at h
      cases hks : kidsForest (buildNode cs fuel) ks with
      | none => rw [hks] at h; exact Option.noConfusion h
      | some fo' =>
        rw [hks] at h
        injection h with h'
        subst h'
        show (flattenTree t ++ flattenForest fo').count d = _
        rw [List.count_append, List.map_cons, List.sum_cons,
          hg k (List.mem_cons_self k ks) t ht,
          ih fo' hks (fun b hb => hg b (List.mem_cons_of_mem k hb))]

/-- Counting a record across the whole built forest, root by root. -/
theorem count_flattenAll_of_builds {cs : List CommentRec} {fuel : Nat}
    (d : CommentRec) (g : CommentRec → Nat) :
    ∀ (ks : List CommentRec) (forest : List CTree),
      buildRoots (buildNode cs fuel) ks = some forest →
      (∀ k ∈ ks, ∀ t, buildNode cs fuel k = some t → (flattenTree t).count d = g k) →
      (flattenAll forest).count d = (ks.map g).sum := by
  intro ks
  induction ks with
  | nil =>
    intro forest h _
    unfold buildRoots at h
    injection h with h'
    subst h'
    rfl
  | cons k ks ih =>
    intro forest h hg
    unfold buildRoots at h
    cases ht : buildNode cs fuel k with
    | none => rw [ht] at h; exact Option.noConfusion h
    | some t =>
      rw [ht] at h
      cases hks : buildRoots (buildNode cs fuel) ks with
      | none => rw [hks] at h; exact Option.noConfusion h
      | some ts' =>
        rw [hks] at h
        injection h with h'
        subst h'
        show (flattenTree t ++ flattenAll ts').count d = _
        rw [List.count_append, List.map_cons, List.sum_cons,
          hg k (List.mem_cons_self k ks) t ht,
          ih ts' hks (fun b hb => hg b (List.mem_cons_of_mem k hb))]

/-- Each comment of a duplicate-free, cycle-free list occurs in a built
subtree exactly once per chain membership. -/
theorem buildNode_count {cs : List CommentRec}
    (hN : (cs.map (fun c => c.id)).Nodup) (hNC : NoCycle cs) :
    ∀ (fuel : Nat) (c : CommentRec) (t : CTree),
      c ∈ cs → buildNode cs fuel c = some t →
      ∀ d ∈ cs, (flattenTree t).count d = if descends cs d c = true then 1 else 0 := by
  intro fuel
  induction fuel with
  | zero =>
    intro c t _ h
    exact Option.noConfusion h
  | succ fuel ih =>
    intro c t hc h d hd
    rw [buildNode_succ] at h
    cases hkf : kidsForest (buildNode cs fuel) (sortByCreated (repliesOf cs c.id)) with
    | none => rw [hkf] at h; exact Option.noConfusion h
    | some fo =>
      rw [hkf] at h
      simp only [Option.map_some', Option.some.injEq] at h
      subst h
      show (c :: flattenForest fo).count d = _
      rw [List.count_cons]
      have h2 : (flattenForest fo).count d
          = ((sortByCreated (repliesOf cs c.id)).map
              (fun k => if descends cs d k = true then 1 else 0)).sum := by
        apply count_flattenForest_of_builds d _ _ fo hkf
        intro k hk t' ht'
        rw [mem_sortByCreated] at hk
        exact ih k t' (mem_repliesOf hN hc hk).1 ht' d hd
      have h3 : ((sortByCreated (repliesOf cs c.id)).map
            (fun k => if descends cs d k = true then 1 else 0)).sum
          = ((repliesOf cs c.id).map
              (fun k => if descends cs d k = true then 1 else 0)).sum := by
        have hperm : (sortByCreated (repliesOf cs c.id)).Perm (repliesOf cs c.id) := by
          unfold sortByCreated
          exact List.perm_insertionSort _ _
        exact (hperm.map _).sum_eq
      rw [h2, h3, descends_decomp hN hNC hd hc]
      by_cases hdc : d = c
      · rw [if_pos hdc, if_pos (by simp [hdc])]
        omega
      · rw [if_neg hdc, if_neg (by simpa using fun h : c = d => hdc h.symm)]
        omega

/-- A built forest flattens as the concatenation of its trees'
flattenings. -/
theorem flattenForest_eq_flatMap :
    ∀ fo : CForest, flattenForest fo = (forestList fo).flatMap flattenTree
  | CForest.nil => rfl
  | CForest.cons t ts => by
    show flattenTree t ++ flattenForest ts = _
    rw [flattenForest_eq_flatMap ts]
    rfl

/-- Everything in a built forest comes from one of its trees. -/
theorem flattenForest_mem {x : CommentRec} (fo : CForest)
    (h : x ∈ flattenForest fo) : ∃ t ∈ forestList fo, x ∈ flattenTree t := by
  rw [flattenForest_eq_flatMap] at h
  exact List.mem_flatMap.mp h

/-- Every record in a built subtree is a member of the comment list. -/
theorem buildNode_flatten_mem {cs : List CommentRec}
    (hN : (cs.map (fun c => c.id)).Nodup) :
    ∀ (fuel : Nat) (c : CommentRec) (t : CTree),
      c ∈ cs → buildNode cs fuel c = some t → ∀ x ∈ flattenTree t, x ∈ cs := by
  intro fuel
  induction fuel with
  | zero =>
    intro c t _ h
    exact Option.noConfusion h
  | succ fuel ih =>
    intro c t hc h x hx
    rw [buildNode_succ] at h
    cases hkf : kidsForest (buildNode cs fuel) (sortByCreated (repliesOf cs c.id)) with
    | none => rw [hkf] at h; exact Option.noConfusion h
    | some fo =>
      rw [hkf] at h
      simp only [Option.map_some', Option.some.injEq] at h
      subst h
      have hx2 : x ∈ c :: flattenForest fo := hx
      rcases List.mem_cons.mp hx2 with rfl | hx3
      · exact hc
      · obtain ⟨t', ht', hxt⟩ := flattenForest_mem fo hx3
        have hfa := kidsForest_some_forall _ fo hkf
        obtain ⟨k, hk, hkt⟩ := forall₂_exists_left hfa t' ht'
        rw [mem_sortByCreated] at hk
        exact ih k t' (mem_repliesOf hN hc hk).1 hkt x hxt

/-- Claim C10 counterexample: on a flat comment list whose parentId
references form no cycle but whose ids collide (`csDup`), a comment is
lost and another duplicated: the built tree flattens to the later
occurrence twice, and the earlier occurrence appears nowhere. -/
theorem commentTree_dup_id_loses_comment :
    NoCycle csDup
    ∧ (buildTree csDup csDup.length).map flattenAll
        = some [⟨"1", none, 1⟩, ⟨"1", none, 1⟩]
    ∧ (⟨"1", none, 0⟩ : CommentRec) ∈ csDup
    ∧ (⟨"1", none, 0⟩ : CommentRec) ∉ [(⟨"1", none, 1⟩ : CommentRec), ⟨"1", none, 1⟩] := by
  refine ⟨by decide, rfl, by decide, by decide⟩

/-- Claim C10 (amended): for every flat comment list with pairwise-distinct
ids whose parentId references form no cycle, every input comment appears
exactly once in the built tree — the flattened forest is a permutation of
the input. -/
theorem commentTree_no_loss (cs : List CommentRec)
    (hN : (cs.map (fun c => c.id)).Nodup) (hNC : NoCycle cs) :
    ∃ forest, buildTree cs cs.length = some forest
      ∧ (flattenAll forest).Perm cs := by
  obtain ⟨forest, hforest⟩ := Option.isSome_iff_exists.mp (buildTree_total hN)
  refine ⟨forest, hforest, ?_⟩
  rw [List.perm_iff_count]
  intro d
  by_cases hd : d ∈ cs
  · rw [List.count_eq_one_of_mem (hN.of_map _) hd]
    have hcount : (flattenAll forest).count d
        = ((sortByCreated (topLevelNodes cs)).map
            (fun r => if descends cs d r = true then 1 else 0)).sum := by
      apply count_flattenAll_of_builds d _ _ forest hforest
      intro r hr t ht
      have hrcs : r ∈ cs := by
        rw [mem_sortByCreated, topLevelNodes_eq hN] at hr
        exact List.mem_of_mem_filter hr
      exact buildNode_count hN hNC cs.length r t hrcs ht d hd
    have hsum : ((sortByCreated (topLevelNodes cs)).map
          (fun r => if descends cs d r = true then 1 else 0)).sum
        = ((cs.filter (fun c => !attachable cs c)).map
            (fun r => if descends cs d r = true then 1 else 0)).sum := by
      have hperm : (sortByCreated (topLevelNodes cs)).Perm
          (cs.filter (fun c => !attachable cs c)) := by
        rw [← topLevelNodes_eq hN]
        unfold sortByCreated
        exact List.perm_insertionSort _ _
      exact (hperm.map _).sum_eq
    obtain ⟨ld, hld⟩ := Option.isSome_iff_exists.mp (hNC d hd)
    have hchd : IsChain cs d ld := chainN_isChain cs.length d ld hld
    obtain ⟨r₀, hr₀ld, hr₀none, hr₀uniq⟩ := isChain_root_exists hchd
    have hr₀cs : r₀ ∈ cs := by
      rcases isChain_subset hchd r₀ hr₀ld with rfl | hm
      · exact hd
      · exact hm
    have hr₀top : r₀ ∈ cs.filter (fun c => !attachable cs c) := by
      rw [List.mem_filter]
      refine ⟨hr₀cs, ?_⟩
      cases hatt : attachable cs r₀ with
      | false => rfl
      | true =>
        exfalso
        exact ((attachable_iff_parentNode cs r₀).mp hatt) hr₀none
    rw [hcount, hsum]
    apply sum_ite_one ((hN.of_map _).filter _) hr₀top
    · rw [descends_eq hld r₀]
      simpa using hr₀ld
    · intro y hy hdy
      rw [List.mem_filter] at hy
      obtain ⟨hycs, hyatt⟩ := hy
      have hynone : parentNode cs y = none := by
        cases hpn : parentNode cs y with
        | none => rfl
        | some p =>
          exfalso
          have : attachable cs y = true :=
            (attachable_iff_parentNode cs y).mpr (by simp [hpn])
          rw [this] at hyatt
          simp at hyatt
      rw [descends_eq hld y] at hdy
      exact hr₀uniq y (by simpa using hdy) hynone
  · rw [List.count_eq_zero.mpr hd, List.count_eq_zero]
    intro hmem
    apply hd
    obtain ⟨t, ht, hxt⟩ := List.mem_flatMap.mp hmem
    have hfa := buildRoots_some_forall _ forest hforest
    obtain ⟨r, hr, hrt⟩ := forall₂_exists_left hfa t ht
    have hrcs : r ∈ cs := by
      rw [mem_sortByCreated, topLevelNodes_eq hN] at hr
      exact List.mem_of_mem_filter hr
    exact buildNode_flatten_mem hN cs.length r t hrcs hrt d hxt

/-- Claim C10 witness: the spec's four-comment example has distinct ids and
no reference cycle; the built tree contains each of its comments exactly
once. -/
theorem commentTree_no_loss_witness :
    ((exComments.map (fun c => c.id)).Nodup) ∧ NoCycle exComments
    ∧ ∃ forest, buildTree exComments exComments.length = some forest
        ∧ (flattenAll forest).Perm exComments :=
  ⟨by decide, by decide, commentTree_no_loss exComments (by decide) (by decide)⟩

end InsightBI
